import Mathlib

/-!
Shallow embedding of the synchronization core of the S3-Documentation-MCP-Server
repository: the change detector and synchronization orchestrator
(`src/services/sync-service.ts`), the HNSW-backed vector store
(`hnswlib-vector-store.ts`), and the full-document retrieval tool
(`get-full-document.ts`).  TypeScript objects keyed by strings are modelled as
insertion-ordered association lists, `Map` likewise; promises/exceptions become
`Except`/`Option` values; the external collaborators (S3 listing and fetch, the
text splitter, the embedding backend, the ANN query) are parameters of the
functions that call them.
-/

namespace S3DocMcp

deriving instance DecidableEq for Except

/-- Entry of `SyncState.documents` (types/index.ts `SyncState`). -/
structure SyncRecord where
  key : String
  etag : String
  lastModified : String
  chunkCount : Nat
  status : String
deriving DecidableEq, Repr

/-- A remote document as listed from S3 (types/index.ts `S3Document`);
`content` is optional exactly as in the source. -/
structure S3Document where
  key : String
  etag : String
  lastModified : String
  size : Nat
  content : Option String
deriving DecidableEq, Repr

/-- The `documents` map of the persisted sync state: a JavaScript object with
string keys, modelled as an insertion-ordered association list. -/
abbrev DocMap := List (String × SyncRecord)

/-- Property lookup `this.syncState.documents[key]` (first binding wins;
a well-formed JS object has distinct keys). -/
def lookupDoc (m : DocMap) (k : String) : Option SyncRecord :=
  match m.find? (fun p => p.1 == k) with
  | some p => some p.2
  | none => none

/-- Property assignment `this.syncState.documents[key] = r`: overwrite in
place when the key exists, append otherwise (JS object insertion order). -/
def setDoc (m : DocMap) (k : String) (r : SyncRecord) : DocMap :=
  if m.any (fun p => p.1 == k) then
    m.map (fun p => if p.1 == k then (k, r) else p)
  else m ++ [(k, r)]

/-- `delete this.syncState.documents[key]`. -/
def eraseDoc (m : DocMap) (k : String) : DocMap :=
  m.filter (fun p => ¬ p.1 == k)

/-- Result record of `SyncService.detectChanges` (types/index.ts
`DetectedChanges`). -/
structure DetectedChanges where
  new : List S3Document
  modified : List S3Document
  deleted : List String
  unchanged : List S3Document
deriving DecidableEq, Repr

/-- Body of the scan loop of `SyncService.detectChanges` (sync-service.ts
lines 95-109): push the document into `new`, `modified` or `unchanged`
according to its cached etag. -/
def scanStep (docs : DocMap) (ch : DetectedChanges) (d : S3Document) : DetectedChanges :=
  match lookupDoc docs d.key with
  | none => { ch with new := ch.new ++ [d] }
  | some cached =>
    if cached.etag ≠ d.etag then { ch with modified := ch.modified ++ [d] }
    else { ch with unchanged := ch.unchanged ++ [d] }

/-- `SyncService.detectChanges` (sync-service.ts lines 83-125): one pass over
the S3 listing pushing each document into `new`/`modified`/`unchanged`, then a
pass over the known keys collecting those absent from the listing as
`deleted`.  The method only reads `this.syncState`, so it is embedded as a
pure function of the state's document map and the listing. -/
def detectChanges (docs : DocMap) (s3Docs : List S3Document) : DetectedChanges :=
  let s3Keys := s3Docs.map (fun d => d.key)
  let scanned := s3Docs.foldl (scanStep docs) ⟨[], [], [], []⟩
  { scanned with deleted := (docs.map (fun p => p.1)).filter (fun k => ¬ s3Keys.contains k) }

/-- The condition under which the scan loop classifies a listed document as
new. -/
def isNewDoc (docs : DocMap) (d : S3Document) : Bool :=
  (lookupDoc docs d.key).isNone

/-- The condition under which the scan loop classifies a listed document as
modified (etag mismatch with the cached record). -/
def isModifiedDoc (docs : DocMap) (d : S3Document) : Bool :=
  match lookupDoc docs d.key with
  | some cached => cached.etag ≠ d.etag
  | none => false

/-- The condition under which the scan loop classifies a listed document as
unchanged. -/
def isUnchangedDoc (docs : DocMap) (d : S3Document) : Bool :=
  match lookupDoc docs d.key with
  | some cached => cached.etag = d.etag
  | none => false

theorem scanStep_new (docs : DocMap) (ch : DetectedChanges) (d : S3Document) :
    (scanStep docs ch d).new = ch.new ++ (if isNewDoc docs d then [d] else []) := by
  unfold scanStep isNewDoc
  cases h : lookupDoc docs d.key with
  | none => simp
  | some cached =>
    by_cases he : cached.etag = d.etag <;> simp [he]

theorem scanStep_modified (docs : DocMap) (ch : DetectedChanges) (d : S3Document) :
    (scanStep docs ch d).modified = ch.modified ++ (if isModifiedDoc docs d then [d] else []) := by
  unfold scanStep isModifiedDoc
  cases h : lookupDoc docs d.key with
  | none => simp
  | some cached =>
    by_cases he : cached.etag = d.etag <;> simp [he]

theorem scanStep_unchanged (docs : DocMap) (ch : DetectedChanges) (d : S3Document) :
    (scanStep docs ch d).unchanged = ch.unchanged ++ (if isUnchangedDoc docs d then [d] else []) := by
  unfold scanStep isUnchangedDoc
  cases h : lookupDoc docs d.key with
  | none => simp
  | some cached =>
    by_cases he : cached.etag = d.etag <;> simp [he]

theorem scanStep_deleted (docs : DocMap) (ch : DetectedChanges) (d : S3Document) :
    (scanStep docs ch d).deleted = ch.deleted := by
  unfold scanStep
  cases h : lookupDoc docs d.key with
  | none => simp
  | some cached =>
    by_cases he : cached.etag = d.etag <;> simp [he]

theorem foldl_scan_new (docs : DocMap) (l : List S3Document) :
    ∀ ch : DetectedChanges,
      (l.foldl (scanStep docs) ch).new = ch.new ++ l.filter (isNewDoc docs) := by
  induction l with
  | nil => intro ch; simp
  | cons d l ih =>
    intro ch
    simp only [List.foldl_cons, ih, scanStep_new, List.filter_cons]
    by_cases h : isNewDoc docs d <;> simp [h]

theorem foldl_scan_modified (docs : DocMap) (l : List S3Document) :
    ∀ ch : DetectedChanges,
      (l.foldl (scanStep docs) ch).modified = ch.modified ++ l.filter (isModifiedDoc docs) := by
  induction l with
  | nil => intro ch; simp
  | cons d l ih =>
    intro ch
    simp only [List.foldl_cons, ih, scanStep_modified, List.filter_cons]
    by_cases h : isModifiedDoc docs d <;> simp [h]

theorem foldl_scan_unchanged (docs : DocMap) (l : List S3Document) :
    ∀ ch : DetectedChanges,
      (l.foldl (scanStep docs) ch).unchanged = ch.unchanged ++ l.filter (isUnchangedDoc docs) := by
  induction l with
  | nil => intro ch; simp
  | cons d l ih =>
    intro ch
    simp only [List.foldl_cons, ih, scanStep_unchanged, List.filter_cons]
    by_cases h : isUnchangedDoc docs d <;> simp [h]

theorem detectChanges_new (docs : DocMap) (s3Docs : List S3Document) :
    (detectChanges docs s3Docs).new = s3Docs.filter (isNewDoc docs) := by
  unfold detectChanges
  simp [foldl_scan_new]

theorem detectChanges_modified (docs : DocMap) (s3Docs : List S3Document) :
    (detectChanges docs s3Docs).modified = s3Docs.filter (isModifiedDoc docs) := by
  unfold detectChanges
  simp [foldl_scan_modified]

theorem detectChanges_unchanged (docs : DocMap) (s3Docs : List S3Document) :
    (detectChanges docs s3Docs).unchanged = s3Docs.filter (isUnchangedDoc docs) := by
  unfold detectChanges
  simp [foldl_scan_unchanged]

theorem detectChanges_deleted (docs : DocMap) (s3Docs : List S3Document) :
    (detectChanges docs s3Docs).deleted =
      (docs.map (fun p => p.1)).filter
        (fun k => ¬ (s3Docs.map (fun d => d.key)).contains k) := by
  unfold detectChanges
  rfl

theorem lookupDoc_isSome_iff (m : DocMap) (k : String) :
    (lookupDoc m k).isSome ↔ k ∈ m.map (fun p => p.1) := by
  unfold lookupDoc
  cases h : m.find? (fun p => p.1 == k) with
  | none =>
    rw [List.find?_eq_none] at h
    simp only [Option.isSome_none, Bool.false_eq_true, false_iff]
    intro hk
    obtain ⟨p, hp, hpk⟩ := List.mem_map.mp hk
    exact absurd (by simpa using hpk) (by simpa using h p hp)
  | some p =>
    simp only [Option.isSome_some, true_iff]
    have hmem := List.mem_of_find?_eq_some h
    have hpk := List.find?_some h
    exact List.mem_map.mpr ⟨p, hmem, by simpa using hpk⟩

theorem isNewDoc_iff (docs : DocMap) (d : S3Document) :
    isNewDoc docs d = true ↔ lookupDoc docs d.key = none := by
  unfold isNewDoc
  cases h : lookupDoc docs d.key <;> simp

theorem isModifiedDoc_iff (docs : DocMap) (d : S3Document) :
    isModifiedDoc docs d = true ↔
      ∃ c, lookupDoc docs d.key = some c ∧ c.etag ≠ d.etag := by
  unfold isModifiedDoc
  cases h : lookupDoc docs d.key with
  | none => simp
  | some c => by_cases he : c.etag = d.etag <;> simp [he]

theorem isUnchangedDoc_iff (docs : DocMap) (d : S3Document) :
    isUnchangedDoc docs d = true ↔
      ∃ c, lookupDoc docs d.key = some c ∧ c.etag = d.etag := by
  unfold isUnchangedDoc
  cases h : lookupDoc docs d.key with
  | none => simp
  | some c => by_cases he : c.etag = d.etag <;> simp [he]

/-- The partition property claimed of `detectChanges`: each listed document is
classified by the etag rule into exactly one bucket, deletions are exactly the
known keys absent from the listing, each known key lands in exactly one of
modified/unchanged/deleted, and no key appears in two classifications. -/
def PartitionSpec (docs : DocMap) (s3Docs : List S3Document) : Prop :=
  let ch := detectChanges docs s3Docs
  let newKeys := ch.new.map S3Document.key
  let modKeys := ch.modified.map S3Document.key
  let unchKeys := ch.unchanged.map S3Document.key
  (∀ d ∈ s3Docs, (d ∈ ch.new ↔ lookupDoc docs d.key = none)) ∧
  (∀ d ∈ s3Docs,
      (d ∈ ch.modified ↔ ∃ c, lookupDoc docs d.key = some c ∧ c.etag ≠ d.etag)) ∧
  (∀ d ∈ s3Docs,
      (d ∈ ch.unchanged ↔ ∃ c, lookupDoc docs d.key = some c ∧ c.etag = d.etag)) ∧
  (∀ k, k ∈ ch.deleted ↔
      ((lookupDoc docs k).isSome ∧ k ∉ s3Docs.map S3Document.key)) ∧
  (∀ d ∈ s3Docs, d.key ∈ newKeys ∨ d.key ∈ modKeys ∨ d.key ∈ unchKeys) ∧
  (∀ p ∈ docs, p.1 ∈ modKeys ∨ p.1 ∈ unchKeys ∨ p.1 ∈ ch.deleted) ∧
  (∀ k, ¬ (k ∈ newKeys ∧ k ∈ modKeys)) ∧
  (∀ k, ¬ (k ∈ newKeys ∧ k ∈ unchKeys)) ∧
  (∀ k, ¬ (k ∈ modKeys ∧ k ∈ unchKeys)) ∧
  (∀ k, ¬ (k ∈ ch.deleted ∧ k ∈ newKeys)) ∧
  (∀ k, ¬ (k ∈ ch.deleted ∧ k ∈ modKeys)) ∧
  (∀ k, ¬ (k ∈ ch.deleted ∧ k ∈ unchKeys))

theorem mem_keys_filter_iff (s3Docs : List S3Document)
    (p : S3Document → Bool) (k : String) :
    k ∈ (s3Docs.filter p).map S3Document.key ↔
      ∃ d ∈ s3Docs, d.key = k ∧ p d = true := by
  constructor
  · intro h
    obtain ⟨d, hd, hdk⟩ := List.mem_map.mp h
    obtain ⟨hmem, hp⟩ := List.mem_filter.mp hd
    exact ⟨d, hmem, hdk, hp⟩
  · rintro ⟨d, hmem, hdk, hp⟩
    exact List.mem_map.mpr ⟨d, List.mem_filter.mpr ⟨hmem, hp⟩, hdk⟩

/-- C1.  Corrected form of the `detectChanges` partition claim: it holds for
every sync state and every S3 listing whose keys are pairwise distinct (the
identity of a remote document is its key).  The function is embedded as a pure
function of its two inputs, which is faithful because the source method only
reads them. -/
theorem C1_detectChanges_partition (docs : DocMap) (s3Docs : List S3Document)
    (hnodup : (s3Docs.map S3Document.key).Nodup) :
    PartitionSpec docs s3Docs := by
  have hinj := List.inj_on_of_nodup_map hnodup
  have hchar := detectChanges_new docs s3Docs
  have hmod := detectChanges_modified docs s3Docs
  have hunch := detectChanges_unchanged docs s3Docs
  have hdel := detectChanges_deleted docs s3Docs
  unfold PartitionSpec
  refine ⟨?_, ?_, ?_, ?_, ?_, ?_, ?_, ?_, ?_, ?_, ?_, ?_⟩
  · intro d hd
    rw [hchar, List.mem_filter, isNewDoc_iff]
    exact ⟨fun h => h.2, fun h => ⟨hd, h⟩⟩
  · intro d hd
    rw [hmod, List.mem_filter, isModifiedDoc_iff]
    exact ⟨fun h => h.2, fun h => ⟨hd, h⟩⟩
  · intro d hd
    rw [hunch, List.mem_filter, isUnchangedDoc_iff]
    exact ⟨fun h => h.2, fun h => ⟨hd, h⟩⟩
  · intro k
    rw [hdel, List.mem_filter, lookupDoc_isSome_iff]
    constructor
    · rintro ⟨hk, hnc⟩
      refine ⟨hk, ?_⟩
      intro hmem
      simp only [List.contains, decide_not, Bool.not_eq_eq_eq_not, Bool.not_true,
        decide_eq_false_iff_not] at hnc
      exact hnc (by simpa [List.elem_iff] using hmem)
    · rintro ⟨hk, hmem⟩
      refine ⟨hk, ?_⟩
      simpa [List.contains, List.elem_iff] using hmem
  · intro d hd
    rcases hc : lookupDoc docs d.key with _ | c
    · left
      rw [hchar]
      exact List.mem_map.mpr ⟨d, List.mem_filter.mpr ⟨hd, by simp [isNewDoc, hc]⟩, rfl⟩
    · by_cases he : c.etag = d.etag
      · right; right
        rw [hunch]
        exact List.mem_map.mpr ⟨d, List.mem_filter.mpr ⟨hd, by simp [isUnchangedDoc, hc, he]⟩, rfl⟩
      · right; left
        rw [hmod]
        exact List.mem_map.mpr ⟨d, List.mem_filter.mpr ⟨hd, by simp [isModifiedDoc, hc, he]⟩, rfl⟩
  · intro p hp
    by_cases hs : p.1 ∈ s3Docs.map S3Document.key
    · obtain ⟨d, hd, hdk⟩ := List.mem_map.mp hs
      have hsome : (lookupDoc docs d.key).isSome := by
        rw [lookupDoc_isSome_iff, hdk]
        exact List.mem_map.mpr ⟨p, hp, rfl⟩
      rcases hc : lookupDoc docs d.key with _ | c
      · rw [hc] at hsome; simp at hsome
      · by_cases he : c.etag = d.etag
        · right; left
          rw [hunch]
          rw [← hdk]
          exact List.mem_map.mpr ⟨d, List.mem_filter.mpr ⟨hd, by simp [isUnchangedDoc, hc, he]⟩, rfl⟩
        · left
          rw [hmod, ← hdk]
          exact List.mem_map.mpr ⟨d, List.mem_filter.mpr ⟨hd, by simp [isModifiedDoc, hc, he]⟩, rfl⟩
    · right; right
      rw [hdel, List.mem_filter]
      refine ⟨List.mem_map.mpr ⟨p, hp, rfl⟩, ?_⟩
      simpa [List.contains, List.elem_iff] using hs
  · rintro k ⟨h1, h2⟩
    rw [hchar] at h1
    rw [hmod] at h2
    obtain ⟨d1, _, hk1, hp1⟩ := (mem_keys_filter_iff _ _ _).mp h1
    obtain ⟨d2, _, hk2, hp2⟩ := (mem_keys_filter_iff _ _ _).mp h2
    rw [isNewDoc_iff] at hp1
    rw [isModifiedDoc_iff] at hp2
    obtain ⟨c, hc, _⟩ := hp2
    rw [hk2, ← hk1] at hc
    rw [hp1] at hc
    exact Option.noConfusion hc
  · rintro k ⟨h1, h2⟩
    rw [hchar] at h1
    rw [hunch] at h2
    obtain ⟨d1, _, hk1, hp1⟩ := (mem_keys_filter_iff _ _ _).mp h1
    obtain ⟨d2, _, hk2, hp2⟩ := (mem_keys_filter_iff _ _ _).mp h2
    rw [isNewDoc_iff] at hp1
    rw [isUnchangedDoc_iff] at hp2
    obtain ⟨c, hc, _⟩ := hp2
    rw [hk2, ← hk1] at hc
    rw [hp1] at hc
    exact Option.noConfusion hc
  · rintro k ⟨h1, h2⟩
    rw [hmod] at h1
    rw [hunch] at h2
    obtain ⟨d1, hd1, hk1, hp1⟩ := (mem_keys_filter_iff _ _ _).mp h1
    obtain ⟨d2, hd2, hk2, hp2⟩ := (mem_keys_filter_iff _ _ _).mp h2
    have : d1 = d2 := hinj hd1 hd2 (by rw [hk1, hk2])
    subst this
    rw [isModifiedDoc_iff] at hp1
    rw [isUnchangedDoc_iff] at hp2
    obtain ⟨c1, hc1, hne⟩ := hp1
    obtain ⟨c2, hc2, heq⟩ := hp2
    rw [hc1] at hc2
    cases hc2
    exact hne heq
  · rintro k ⟨h1, h2⟩
    rw [hdel, List.mem_filter] at h1
    rw [hchar] at h2
    obtain ⟨d, hd, hk, _⟩ := (mem_keys_filter_iff _ _ _).mp h2
    have : (List.contains (s3Docs.map S3Document.key) k) = false := by
      simpa using h1.2
    rw [List.contains, ← Bool.not_eq_true, List.elem_iff] at this
    exact this (by rw [← hk]; exact List.mem_map.mpr ⟨d, hd, rfl⟩)
  · rintro k ⟨h1, h2⟩
    rw [hdel, List.mem_filter] at h1
    rw [hmod] at h2
    obtain ⟨d, hd, hk, _⟩ := (mem_keys_filter_iff _ _ _).mp h2
    have : (List.contains (s3Docs.map S3Document.key) k) = false := by
      simpa using h1.2
    rw [List.contains, ← Bool.not_eq_true, List.elem_iff] at this
    exact this (by rw [← hk]; exact List.mem_map.mpr ⟨d, hd, rfl⟩)
  · rintro k ⟨h1, h2⟩
    rw [hdel, List.mem_filter] at h1
    rw [hunch] at h2
    obtain ⟨d, hd, hk, _⟩ := (mem_keys_filter_iff _ _ _).mp h2
    have : (List.contains (s3Docs.map S3Document.key) k) = false := by
      simpa using h1.2
    rw [List.contains, ← Bool.not_eq_true, List.elem_iff] at this
    exact this (by rw [← hk]; exact List.mem_map.mpr ⟨d, hd, rfl⟩)

/-- A one-key sync state used by the C1 witness and counterexample. -/
def c1State : DocMap :=
  [("a.md", ⟨"a.md", "e1", "t0", 1, "indexed"⟩)]

/-- A duplicate-key listing: the same key listed once with the cached etag and
once with a different etag. -/
def c1DupListing : List S3Document :=
  [⟨"a.md", "e1", "t1", 3, none⟩, ⟨"a.md", "e2", "t1", 3, none⟩]

/-- C1 counterexample.  On a listing containing the same key twice with
different etags, `detectChanges` places the key in both `modified` and
`unchanged`, so the claimed partition fails as stated for arbitrary listing
lists. -/
theorem C1_counterexample :
    "a.md" ∈ (detectChanges c1State c1DupListing).modified.map S3Document.key ∧
    "a.md" ∈ (detectChanges c1State c1DupListing).unchanged.map S3Document.key := by
  decide

/-- A distinct-key listing for the C1 witness. -/
def c1Listing : List S3Document :=
  [⟨"a.md", "e2", "t1", 3, none⟩, ⟨"b.md", "e9", "t1", 4, none⟩]

/-- C1 witness: the partition theorem applied at a concrete state and a
concrete duplicate-free listing. -/
theorem C1_witness :
    (c1Listing.map S3Document.key).Nodup ∧ PartitionSpec c1State c1Listing :=
  ⟨by decide, C1_detectChanges_partition c1State c1Listing (by decide)⟩

/-- Log severity of the repository's logger; tracked where a claim talks
about log levels. -/
inductive LogLevel
  | debug
  | info
  | success
  | warn
  | error
deriving DecidableEq, Repr

/-- A chunk as held by the HNSW store: the langchain `Document` built in
`addDocuments` (metadata id/key/etag/chunkIndex/totalChunks/source plus the
page content) together with its embedding vector; the `indexedAt` wall-clock
stamp is elided. -/
structure ChunkRec where
  id : Nat
  key : String
  etag : String
  chunkIndex : Nat
  totalChunks : Nat
  source : String
  text : String
  vec : List Int
deriving DecidableEq, Repr

/-- The `keyIndex : Map<string, string[]>` of `HNSWVectorStore`, an
insertion-ordered map from S3 key to the ids of its chunks. -/
abbrev KeyIndex := List (String × List Nat)

/-- `this.keyIndex.has(k)`. -/
def kiHas (ki : KeyIndex) (k : String) : Bool :=
  ki.any (fun p => p.1 == k)

/-- `this.keyIndex.get(k) ?? []`. -/
def kiGet (ki : KeyIndex) (k : String) : List Nat :=
  match ki.find? (fun p => p.1 == k) with
  | some p => p.2
  | none => []

/-- The source's `if (!keyIndex.has(k)) keyIndex.set(k, []); keyIndex.get(k).push(i)`. -/
def kiPush (ki : KeyIndex) (k : String) (i : Nat) : KeyIndex :=
  if kiHas ki k then ki.map (fun p => if p.1 == k then (p.1, p.2 ++ [i]) else p)
  else ki ++ [(k, [i])]

/-- `this.keyIndex.delete(k)`. -/
def kiDelete (ki : KeyIndex) (k : String) : KeyIndex :=
  ki.filter (fun p => ¬ p.1 == k)

/-- In-memory and on-disk state of `HNSWVectorStore`.  The opaque ANN
structure and the langchain docstore always hold the same chunk set, modelled
as `docstore`; `randomUUID()` is modelled as the fresh-id counter `nextId`;
`disk` is the persisted snapshot under the store path (`none` when no
snapshot was ever written). -/
structure VSState where
  docstore : List ChunkRec
  keyIndex : KeyIndex
  nextId : Nat
  disk : Option (List ChunkRec)
deriving DecidableEq, Repr

/-- Backend `HNSWLib.save`: per the source's own comment in `removeByKey`
(an empty store without any documents added cannot be saved), serialization
throws on an empty store and otherwise writes the docstore snapshot. -/
def hnswBackendSave (docstore : List ChunkRec) (disk : Option (List ChunkRec)) :
    Option (List ChunkRec) × Bool :=
  if docstore.isEmpty then (disk, false) else (some docstore, true)

/-- `HNSWVectorStore.save` (current variant, part_003 lines 402-432): warn and
return when the store is not initialized; otherwise log at info level, attempt
the backend save (success and the index-file stat are logged), and on failure
catch the exception, logging at error and warn level without rethrowing. -/
def VSState.save (st : VSState) (initialized : Bool) : VSState × List LogLevel :=
  if initialized = false then (st, [LogLevel.warn])
  else
    match hnswBackendSave st.docstore st.disk with
    | (disk1, true) =>
      ({ st with disk := disk1 }, [LogLevel.info, LogLevel.success, LogLevel.info])
    | (_, false) => (st, [LogLevel.info, LogLevel.error, LogLevel.warn])

/-- The embedding provider consumed by the store: `none` models a rejected
promise for that text. -/
abbrev Embed := String → Option (List Int)

/-- Batched embedding as performed inside the langchain `addDocuments`: every
text is embedded in one call before any vector is inserted, so one failing
text fails the whole batch with nothing inserted. -/
def embedBatch (embed : Embed) : List String → Option (List (List Int))
  | [] => some []
  | t :: ts =>
    match embed t, embedBatch embed ts with
    | some v, some vs => some (v :: vs)
    | _, _ => none

/-- Metadata of a chunk handed to `addDocuments` (types/index.ts
`DocumentToIndex`). -/
structure DocMeta where
  key : String
  etag : String
  chunkIndex : Nat
  totalChunks : Nat
  source : String
deriving DecidableEq, Repr

/-- A chunk handed to `addDocuments` (types/index.ts `DocumentToIndex`). -/
structure DocumentToIndex where
  content : String
  metadata : DocMeta
deriving DecidableEq, Repr

/-- Fresh ids assigned to a batch of inputs, in order (`randomUUID()` per
input, modelled as consecutive counter values). -/
def buildDocs : List DocumentToIndex → Nat → List (Nat × DocumentToIndex)
  | [], _ => []
  | d :: ds, n => (n, d) :: buildDocs ds (n + 1)

/-- The chunk records inserted by a successful `addDocuments` batch: each id
paired with its input chunk and its embedding vector. -/
def mkChunks (withIds : List (Nat × DocumentToIndex)) (vecs : List (List Int)) :
    List ChunkRec :=
  (withIds.zip vecs).map (fun q =>
    ({ id := q.1.1, key := q.1.2.metadata.key, etag := q.1.2.metadata.etag,
       chunkIndex := q.1.2.metadata.chunkIndex, totalChunks := q.1.2.metadata.totalChunks,
       source := q.1.2.metadata.source, text := q.1.2.content, vec := q.2 } : ChunkRec))

/-- `HNSWVectorStore.addDocuments` (part_003 lines 205-237).  The map over the
inputs generates a fresh id per chunk and pushes it into the key index BEFORE
the embedding call; `store.addDocuments` then embeds all page contents in one
batch and only afterwards inserts the vectors; finally `save()` persists.  The
returned flag is `false` when the embedding batch fails: the exception
propagates to the caller with the key index already mutated and the docstore
and disk untouched. -/
def VSState.addDocuments (embed : Embed) (st : VSState) (docs : List DocumentToIndex) :
    VSState × Bool :=
  let withIds := buildDocs docs st.nextId
  let ki1 := withIds.foldl (fun ki p => kiPush ki p.2.metadata.key p.1) st.keyIndex
  let st1 : VSState := { st with keyIndex := ki1, nextId := st.nextId + docs.length }
  match embedBatch embed (withIds.map (fun p => p.2.content)) with
  | none => (st1, false)
  | some vecs =>
    let st2 : VSState := { st1 with docstore := st1.docstore ++ mkChunks withIds vecs }
    ((VSState.save st2 true).1, true)

/-- `HNSWVectorStore.clearAll` (part_003 lines 242-250): replace the store and
the key index by fresh empty instances; the disk snapshot is not touched. -/
def VSState.clearAll (st : VSState) : VSState :=
  { st with docstore := [], keyIndex := [] }

/-- `HNSWVectorStore.removeByKey` (part_003 lines 255-300).  No native delete:
the kept chunks are collected from the docstore, the store is recreated empty
and the kept documents are re-added through the backend (which re-embeds their
texts); a failing re-embedding therefore propagates with the store left
freshly rebuilt (empty) and the key index untouched.  On success the key entry
is deleted and the store persisted only when at least one chunk was kept. -/
def VSState.removeByKey (embed : Embed) (st : VSState) (k : String) :
    VSState × Except String Nat :=
  let idsToRemove := kiGet st.keyIndex k
  if idsToRemove.length = 0 then (st, Except.ok 0)
  else
    let keptDocs := st.docstore.filter (fun c => ¬ idsToRemove.contains c.id)
    match embedBatch embed (keptDocs.map (fun c => c.text)) with
    | none => ({ st with docstore := [] }, Except.error "re-embedding failed")
    | some _ =>
      let st1 : VSState := { st with docstore := keptDocs, keyIndex := kiDelete st.keyIndex k }
      let st2 := if keptDocs.length > 0 then (VSState.save st1 true).1 else st1
      (st2, Except.ok idsToRemove.length)

/-- `rebuildKeyIndexFromFile` (part_003 lines 129-145): regroup chunk ids by
key by scanning the persisted docstore records in order. -/
def rebuildKeyIndexFromFile (docstoreData : List ChunkRec) : KeyIndex :=
  docstoreData.foldl (fun ki c => kiPush ki c.key c.id) []

/-- A similarity search result (types/index.ts `SearchResult`), keeping the
chunk record and the converted score. -/
structure SearchResult where
  chunk : ChunkRec
  score : ℚ
deriving DecidableEq, Repr

/-- `HNSWVectorStore.similaritySearch` (part_003 lines 305-363) downstream of
the ANN query: the raw `(document, cosine distance)` pairs returned by
`store.similaritySearchWithScore` are mapped to similarity scores `1 - d` and
filtered by `score >= minSimilarityScore`, keeping the ANN order.  The ANN
call itself is external; its result list is a parameter. -/
def similaritySearch (raws : List (ChunkRec × ℚ)) (minScore : ℚ) : List SearchResult :=
  let allResults := raws.map (fun p => ({ chunk := p.1, score := 1 - p.2 } : SearchResult))
  allResults.filter (fun r => minScore ≤ r.score)

theorem save_fields (st : VSState) (b : Bool) :
    (VSState.save st b).1.docstore = st.docstore ∧
    (VSState.save st b).1.keyIndex = st.keyIndex ∧
    (VSState.save st b).1.nextId = st.nextId := by
  unfold VSState.save hnswBackendSave
  cases b <;> by_cases h : st.docstore.isEmpty <;> simp [h]

theorem buildDocs_contents (docs : List DocumentToIndex) :
    ∀ n, (buildDocs docs n).map (fun p => p.2.content) = docs.map (fun d => d.content) := by
  induction docs with
  | nil => intro n; rfl
  | cons d ds ih => intro n; simp [buildDocs, ih]

theorem buildDocs_snd (docs : List DocumentToIndex) :
    ∀ n, (buildDocs docs n).map (fun p => p.2) = docs := by
  induction docs with
  | nil => intro n; rfl
  | cons d ds ih => intro n; simp [buildDocs, ih]

theorem buildDocs_length (docs : List DocumentToIndex) :
    ∀ n, (buildDocs docs n).length = docs.length := by
  induction docs with
  | nil => intro n; rfl
  | cons d ds ih => intro n; simp [buildDocs, ih]

theorem buildDocs_id_ge (docs : List DocumentToIndex) :
    ∀ n, ∀ q ∈ buildDocs docs n, n ≤ q.1 := by
  induction docs with
  | nil => intro n q hq; cases hq
  | cons d ds ih =>
    intro n q hq
    rcases List.mem_cons.mp hq with h | h
    · subst h; exact Nat.le_refl n
    · exact Nat.le_trans (Nat.le_succ n) (ih (n + 1) q h)

theorem embedBatch_length (embed : Embed) (ts : List String) :
    ∀ vs, embedBatch embed ts = some vs → vs.length = ts.length := by
  induction ts with
  | nil =>
    intro vs h
    simp [embedBatch] at h
    simp [← h]
  | cons t ts ih =>
    intro vs h
    unfold embedBatch at h
    cases he : embed t with
    | none => rw [he] at h; simp at h
    | some v =>
      rw [he] at h
      cases hb : embedBatch embed ts with
      | none => rw [hb] at h; simp at h
      | some vs1 =>
        rw [hb] at h
        simp at h
        subst h
        simp [ih vs1 hb]

theorem embedBatch_isSome (embed : Embed) (ts : List String)
    (h : ∀ t ∈ ts, (embed t).isSome) : (embedBatch embed ts).isSome := by
  induction ts with
  | nil => simp [embedBatch]
  | cons t ts ih =>
    unfold embedBatch
    cases he : embed t with
    | none =>
      have := h t (List.mem_cons_self t ts)
      rw [he] at this
      simp at this
    | some v =>
      have hrest := ih (fun x hx => h x (List.mem_cons_of_mem t hx))
      cases hb : embedBatch embed ts with
      | none => rw [hb] at hrest; simp at hrest
      | some vs => simp

theorem kiHas_eq_false_of_absent (ki : KeyIndex) (K : String)
    (hK : ∀ p ∈ ki, p.1 ≠ K) : kiHas ki K = false := by
  unfold kiHas
  rw [List.any_eq_false]
  intro p hp
  simp [hK p hp]

theorem kiPush_append_absent (ki : KeyIndex) (K : String)
    (hK : ∀ p ∈ ki, p.1 ≠ K) (acc : List Nat) (i : Nat) :
    kiPush (ki ++ [(K, acc)]) K i = ki ++ [(K, acc ++ [i])] := by
  unfold kiPush
  have hhas : kiHas (ki ++ [(K, acc)]) K = true := by
    unfold kiHas
    rw [List.any_eq_true]
    exact ⟨(K, acc), by simp⟩
  rw [if_pos hhas, List.map_append]
  congr 1
  · have : ∀ p ∈ ki, (if p.1 == K then (p.1, p.2 ++ [i]) else p) = p := by
      intro p hp
      simp [hK p hp]
    calc ki.map (fun p => if p.1 == K then (p.1, p.2 ++ [i]) else p)
        = ki.map id := List.map_congr_left this
      _ = ki := List.map_id ki
  · simp

theorem foldPush_acc (K : String) (ki : KeyIndex) (hK : ∀ p ∈ ki, p.1 ≠ K)
    (l : List (Nat × DocumentToIndex)) (hl : ∀ q ∈ l, q.2.metadata.key = K) :
    ∀ acc, l.foldl (fun ki p => kiPush ki p.2.metadata.key p.1) (ki ++ [(K, acc)]) =
      ki ++ [(K, acc ++ l.map (fun q => q.1))] := by
  induction l with
  | nil => intro acc; simp
  | cons q l ih =>
    intro acc
    have hq : q.2.metadata.key = K := hl q (List.mem_cons_self q l)
    simp only [List.foldl_cons, hq, kiPush_append_absent ki K hK acc q.1]
    rw [ih (fun x hx => hl x (List.mem_cons_of_mem q hx)) (acc ++ [q.1])]
    simp

theorem foldPush_absent (K : String) (ki : KeyIndex) (hK : ∀ p ∈ ki, p.1 ≠ K)
    (l : List (Nat × DocumentToIndex)) (hl : ∀ q ∈ l, q.2.metadata.key = K) :
    l.foldl (fun ki p => kiPush ki p.2.metadata.key p.1) ki =
      (if l = [] then ki else ki ++ [(K, l.map (fun q => q.1))]) := by
  cases l with
  | nil => simp
  | cons q l =>
    have hq : q.2.metadata.key = K := hl q (List.mem_cons_self q l)
    simp only [List.foldl_cons, if_neg (List.cons_ne_nil q l)]
    have hstep : kiPush ki q.2.metadata.key q.1 = ki ++ [(K, [q.1])] := by
      rw [hq]
      unfold kiPush
      rw [if_neg (by simp [kiHas_eq_false_of_absent ki K hK])]
    rw [hstep, foldPush_acc K ki hK l (fun x hx => hl x (List.mem_cons_of_mem q hx)) [q.1]]
    simp

theorem kiGet_append_absent (ki : KeyIndex) (K : String)
    (hK : ∀ p ∈ ki, p.1 ≠ K) (ids : List Nat) :
    kiGet (ki ++ [(K, ids)]) K = ids := by
  unfold kiGet
  induction ki with
  | nil => simp
  | cons p ki ih =>
    have hp : p.1 ≠ K := hK p (List.mem_cons_self p ki)
    simp only [List.cons_append, List.find?_cons]
    rw [show (p.1 == K) = false by simp [hp]]
    exact ih (fun x hx => hK x (List.mem_cons_of_mem p hx))

theorem kiGet_absent (ki : KeyIndex) (K : String)
    (hK : ∀ p ∈ ki, p.1 ≠ K) : kiGet ki K = [] := by
  unfold kiGet
  cases hf : ki.find? (fun p => p.1 == K) with
  | none => rfl
  | some p =>
    have hmem := List.mem_of_find?_eq_some hf
    have hpk := List.find?_some hf
    exact absurd (by simpa using hpk) (hK p hmem)

theorem kiDelete_append_absent (ki : KeyIndex) (K : String)
    (hK : ∀ p ∈ ki, p.1 ≠ K) (ids : List Nat) :
    kiDelete (ki ++ [(K, ids)]) K = ki := by
  unfold kiDelete
  rw [List.filter_append]
  have h1 : ki.filter (fun p => ¬ p.1 == K) = ki :=
    List.filter_eq_self.mpr (fun p hp => by simp [hK p hp])
  have h2 : [((K, ids) : String × List Nat)].filter (fun p => ¬ p.1 == K) = [] := by
    simp
  rw [h1, h2, List.append_nil]

/-- C2.  Corrected form of the `addDocuments` atomicity claim: when the
embedding batch fails, the call fails before any chunk is inserted into the
ANN structure (docstore unchanged) and the on-disk snapshot is untouched, but
the KeyIndex is NOT unchanged: the loop building the langchain documents has
already pushed one fresh id per input chunk under its key. -/
theorem C2_addDocuments_embed_failure (embed : Embed) (st : VSState)
    (docs : List DocumentToIndex)
    (hfail : embedBatch embed (docs.map (fun d => d.content)) = none) :
    (VSState.addDocuments embed st docs).2 = false ∧
    (VSState.addDocuments embed st docs).1.docstore = st.docstore ∧
    (VSState.addDocuments embed st docs).1.disk = st.disk ∧
    (VSState.addDocuments embed st docs).1.keyIndex =
      (buildDocs docs st.nextId).foldl (fun ki p => kiPush ki p.2.metadata.key p.1)
        st.keyIndex := by
  unfold VSState.addDocuments
  simp only [buildDocs_contents docs st.nextId, hfail]
  exact ⟨trivial, trivial, trivial, trivial⟩

/-- An embedding provider whose every call fails. -/
def embedNone : Embed := fun _ => none

/-- An embedding provider that always succeeds. -/
def embedOne : Embed := fun _ => some [1]

/-- A chunk to index, keyed under a.md. -/
def d0 : DocumentToIndex := ⟨"hello", ⟨"a.md", "e1", 0, 1, "s3-bucket-a.md"⟩⟩

/-- The empty vector-store state. -/
def vs0 : VSState := ⟨[], [], 0, none⟩

/-- C2 counterexample.  With a failing embedder, `addDocuments` on one chunk
fails, yet the KeyIndex has gained the freshly generated id under the chunk's
key: the state is not left exactly as it was before the call. -/
theorem C2_counterexample :
    (VSState.addDocuments embedNone vs0 [d0]).2 = false ∧
    (VSState.addDocuments embedNone vs0 [d0]).1.keyIndex = [("a.md", [0])] ∧
    vs0.keyIndex = [] := by
  decide

/-- C2 witness: the corrected theorem applied to a failing embedder, one
chunk and the empty store. -/
theorem C2_witness :
    embedBatch embedNone ([d0].map (fun d => d.content)) = none ∧
    ((VSState.addDocuments embedNone vs0 [d0]).2 = false ∧
     (VSState.addDocuments embedNone vs0 [d0]).1.docstore = vs0.docstore ∧
     (VSState.addDocuments embedNone vs0 [d0]).1.disk = vs0.disk ∧
     (VSState.addDocuments embedNone vs0 [d0]).1.keyIndex =
       (buildDocs [d0] vs0.nextId).foldl (fun ki p => kiPush ki p.2.metadata.key p.1)
         vs0.keyIndex) :=
  ⟨by decide, C2_addDocuments_embed_failure embedNone vs0 [d0] (by decide)⟩

theorem addDocuments_success_eq (embed : Embed) (st : VSState)
    (docs : List DocumentToIndex) (vecs : List (List Int))
    (heq : embedBatch embed (docs.map (fun d => d.content)) = some vecs) :
    VSState.addDocuments embed st docs =
      ((VSState.save
          ⟨st.docstore ++ mkChunks (buildDocs docs st.nextId) vecs,
           (buildDocs docs st.nextId).foldl
             (fun ki p => kiPush ki p.2.metadata.key p.1) st.keyIndex,
           st.nextId + docs.length, st.disk⟩ true).1, true) := by
  unfold VSState.addDocuments
  simp only [buildDocs_contents docs st.nextId, heq]

theorem mkChunks_id_mem (withIds : List (Nat × DocumentToIndex))
    (vecs : List (List Int)) (c : ChunkRec) (hc : c ∈ mkChunks withIds vecs) :
    c.id ∈ withIds.map (fun q => q.1) := by
  unfold mkChunks at hc
  obtain ⟨q, hq, hqc⟩ := List.mem_map.mp hc
  have hq1 := (List.of_mem_zip hq).1
  rw [← hqc]
  exact List.mem_map.mpr ⟨q.1, hq1, rfl⟩

theorem mkChunks_length (withIds : List (Nat × DocumentToIndex))
    (vecs : List (List Int)) (hlen : vecs.length = withIds.length) :
    (mkChunks withIds vecs).length = withIds.length := by
  unfold mkChunks
  rw [List.length_map, List.length_zip, hlen, Nat.min_self]

/-- The round-trip property of C5, instantiated below both as the amended
theorem's conclusion and at the witness input: the batch succeeds, the chunk
count grows by the batch size, the removal returns exactly that count, the key
index and the docstore return to their original values, and removal of a key
unknown to the key index returns 0 without touching the state. -/
def RoundTripSpec (embed : Embed) (st : VSState) (K : String)
    (docs : List DocumentToIndex) : Prop :=
  (VSState.addDocuments embed st docs).2 = true ∧
  (VSState.addDocuments embed st docs).1.docstore.length
    = st.docstore.length + docs.length ∧
  (VSState.removeByKey embed (VSState.addDocuments embed st docs).1 K).2
    = Except.ok docs.length ∧
  (VSState.removeByKey embed (VSState.addDocuments embed st docs).1 K).1.keyIndex
    = st.keyIndex ∧
  (VSState.removeByKey embed (VSState.addDocuments embed st docs).1 K).1.docstore
    = st.docstore ∧
  (VSState.removeByKey embed st K).2 = Except.ok 0 ∧
  (VSState.removeByKey embed st K).1 = st

/-- C5.  Corrected form of the add/remove round-trip claim: it holds when the
key K is not already present in the KeyIndex before the `addDocuments` call
(fresh ids, embeddable inputs and store assumed).  The last two conjuncts are
the unknown-key clause of the claim. -/
theorem C5_add_remove_roundtrip (embed : Embed) (st : VSState) (K : String)
    (docs : List DocumentToIndex)
    (hK : ∀ p ∈ st.keyIndex, p.1 ≠ K)
    (hfresh : ∀ c ∈ st.docstore, c.id < st.nextId)
    (hkeys : ∀ d ∈ docs, d.metadata.key = K)
    (hembed : (embedBatch embed (docs.map (fun d => d.content))).isSome)
    (hstore : ∀ c ∈ st.docstore, (embed c.text).isSome) :
    RoundTripSpec embed st K docs := by
  obtain ⟨vecs, heq⟩ := Option.isSome_iff_exists.mp hembed
  have hadd := addDocuments_success_eq embed st docs vecs heq
  have hrem0 : VSState.removeByKey embed st K = (st, Except.ok 0) := by
    unfold VSState.removeByKey
    rw [kiGet_absent st.keyIndex K hK]
    simp
  have hwIkeys : ∀ q ∈ buildDocs docs st.nextId, q.2.metadata.key = K := by
    intro q hq
    have : q.2 ∈ (buildDocs docs st.nextId).map (fun p => p.2) :=
      List.mem_map.mpr ⟨q, hq, rfl⟩
    rw [buildDocs_snd docs st.nextId] at this
    exact hkeys q.2 this
  have hvlen : vecs.length = (buildDocs docs st.nextId).length := by
    rw [buildDocs_length docs st.nextId]
    have := embedBatch_length embed (docs.map (fun d => d.content)) vecs heq
    simpa using this
  have hclen : (mkChunks (buildDocs docs st.nextId) vecs).length = docs.length := by
    rw [mkChunks_length _ _ hvlen, buildDocs_length]
  cases hd : docs with
  | nil =>
    subst hd
    have hki : (buildDocs ([] : List DocumentToIndex) st.nextId).foldl
        (fun ki p => kiPush ki p.2.metadata.key p.1) st.keyIndex = st.keyIndex := rfl
    have hA : VSState.addDocuments embed st [] =
        ((VSState.save ⟨st.docstore, st.keyIndex, st.nextId, st.disk⟩ true).1, true) := by
      rw [hadd]
      simp [mkChunks, buildDocs]
    set A := (VSState.save ⟨st.docstore, st.keyIndex, st.nextId, st.disk⟩ true).1 with hAdef
    have hAfields := save_fields ⟨st.docstore, st.keyIndex, st.nextId, st.disk⟩ true
    have hAds : A.docstore = st.docstore := hAfields.1
    have hAki : A.keyIndex = st.keyIndex := hAfields.2.1
    have hremA : VSState.removeByKey embed A K = (A, Except.ok 0) := by
      unfold VSState.removeByKey
      rw [hAki, kiGet_absent st.keyIndex K hK]
      simp
    refine ⟨?_, ?_, ?_, ?_, ?_, ?_, ?_⟩
    · rw [hA]
    · rw [hA]; simp [hAds]
    · rw [hA]; simp only [hremA]; rfl
    · rw [hA]; simp only [hremA]; exact hAki
    · rw [hA]; simp only [hremA]; exact hAds
    · rw [hrem0]
    · rw [hrem0]
  | cons d ds =>
    subst hd
    set wI := buildDocs (d :: ds) st.nextId with hwI
    set ids := wI.map (fun q => q.1) with hids
    have hwIne : wI ≠ [] := by rw [hwI]; simp [buildDocs]
    have hki : wI.foldl (fun ki p => kiPush ki p.2.metadata.key p.1) st.keyIndex
        = st.keyIndex ++ [(K, ids)] := by
      rw [foldPush_absent K st.keyIndex hK wI hwIkeys, if_neg hwIne]
    have hA : VSState.addDocuments embed st (d :: ds) =
        ((VSState.save
            ⟨st.docstore ++ mkChunks wI vecs, st.keyIndex ++ [(K, ids)],
             st.nextId + (d :: ds).length, st.disk⟩ true).1, true) := by
      rw [hadd, hki]
    set inner : VSState :=
      ⟨st.docstore ++ mkChunks wI vecs, st.keyIndex ++ [(K, ids)],
       st.nextId + (d :: ds).length, st.disk⟩ with hinner
    set A := (VSState.save inner true).1 with hAdef
    have hAfields := save_fields inner true
    have hAds : A.docstore = st.docstore ++ mkChunks wI vecs := hAfields.1
    have hAki : A.keyIndex = st.keyIndex ++ [(K, ids)] := hAfields.2.1
    have hidslen : ids.length = (d :: ds).length := by
      rw [hids, List.length_map, hwI, buildDocs_length]
    have hidsne : ids.length ≠ 0 := by
      rw [hidslen]; simp
    have hgetA : kiGet A.keyIndex K = ids := by
      rw [hAki]; exact kiGet_append_absent st.keyIndex K hK ids
    have hkept : (st.docstore ++ mkChunks wI vecs).filter
        (fun c => ¬ ids.contains c.id) = st.docstore := by
      rw [List.filter_append]
      have h1 : st.docstore.filter (fun c => ¬ ids.contains c.id) = st.docstore := by
        apply List.filter_eq_self.mpr
        intro c hc
        have hlt := hfresh c hc
        have hnotmem : c.id ∉ ids := by
          intro hmem
          rw [hids] at hmem
          obtain ⟨q, hq, hq1⟩ := List.mem_map.mp hmem
          have := buildDocs_id_ge (d :: ds) st.nextId q (by rw [hwI] at hq; exact hq)
          omega
        simpa [List.contains, List.elem_iff] using hnotmem
      have h2 : (mkChunks wI vecs).filter (fun c => ¬ ids.contains c.id) = [] := by
        apply List.filter_eq_nil_iff.mpr
        intro c hc
        have : c.id ∈ ids := by rw [hids]; exact mkChunks_id_mem wI vecs c hc
        simp [List.elem_iff, this, List.contains]
      rw [h1, h2, List.append_nil]
    have hkeptEmbed : (embedBatch embed (st.docstore.map (fun c => c.text))).isSome := by
      apply embedBatch_isSome
      intro t ht
      obtain ⟨c, hc, hct⟩ := List.mem_map.mp ht
      rw [← hct]
      exact hstore c hc
    obtain ⟨kvecs, hkeq⟩ := Option.isSome_iff_exists.mp hkeptEmbed
    have hdelki : kiDelete A.keyIndex K = st.keyIndex := by
      rw [hAki]; exact kiDelete_append_absent st.keyIndex K hK ids
    have hremA : VSState.removeByKey embed A K =
        ((if st.docstore.length > 0
          then (VSState.save ⟨st.docstore, st.keyIndex, A.nextId, A.disk⟩ true).1
          else ⟨st.docstore, st.keyIndex, A.nextId, A.disk⟩), Except.ok ids.length) := by
      unfold VSState.removeByKey
      rw [hgetA, if_neg hidsne, hAds, hkept]
      simp [hkeq, hdelki]
    refine ⟨?_, ?_, ?_, ?_, ?_, ?_, ?_⟩
    · rw [hA]
    · rw [hA]
      show A.docstore.length = st.docstore.length + (d :: ds).length
      rw [hAds, List.length_append, hclen]
    · rw [hA]
      show (VSState.removeByKey embed A K).2 = Except.ok (d :: ds).length
      rw [hremA, hidslen]
    · rw [hA]
      show (VSState.removeByKey embed A K).1.keyIndex = st.keyIndex
      rw [hremA]
      by_cases hpos : st.docstore.length > 0
      · rw [if_pos hpos]
        exact (save_fields ⟨st.docstore, st.keyIndex, A.nextId, A.disk⟩ true).2.1
      · rw [if_neg hpos]
    · rw [hA]
      show (VSState.removeByKey embed A K).1.docstore = st.docstore
      rw [hremA]
      by_cases hpos : st.docstore.length > 0
      · rw [if_pos hpos]
        exact (save_fields ⟨st.docstore, st.keyIndex, A.nextId, A.disk⟩ true).1
      · rw [if_neg hpos]
    · rw [hrem0]
    · rw [hrem0]

/-- A pre-existing chunk under a.md, used by the C5 counterexample. -/
def c5Chunk : ChunkRec := ⟨0, "a.md", "e0", 0, 1, "s3-bucket-a.md", "old", [1]⟩

/-- A state in which a.md already owns one chunk. -/
def c5State : VSState := ⟨[c5Chunk], [("a.md", [0])], 1, none⟩

/-- C5 counterexample.  When the key already owns one chunk, adding one more
chunk for it and then removing the key reports 2 removed chunks and shrinks
the docstore from 2 to 0 — a decrease of 2, not of the 1 chunk just added, so
the claim fails as stated for arbitrary prior states. -/
theorem C5_counterexample :
    (VSState.addDocuments embedOne c5State [d0]).1.docstore.length = 2 ∧
    (VSState.removeByKey embedOne (VSState.addDocuments embedOne c5State [d0]).1 "a.md").2
      = Except.ok 2 ∧
    (VSState.removeByKey embedOne (VSState.addDocuments embedOne c5State [d0]).1 "a.md").1.docstore.length
      = 0 := by
  decide

/-- C5 witness: the corrected round-trip theorem applied to the empty store,
one chunk under the fresh key a.md and an always-succeeding embedder. -/
theorem C5_witness :
    (∀ p ∈ vs0.keyIndex, p.1 ≠ "a.md") ∧
    (∀ c ∈ vs0.docstore, c.id < vs0.nextId) ∧
    (∀ d ∈ [d0], d.metadata.key = "a.md") ∧
    (embedBatch embedOne ([d0].map (fun d => d.content))).isSome ∧
    (∀ c ∈ vs0.docstore, (embedOne c.text).isSome) ∧
    RoundTripSpec embedOne vs0 "a.md" [d0] :=
  ⟨by decide, by decide, by decide, by decide, by decide,
   C5_add_remove_roundtrip embedOne vs0 "a.md" [d0]
     (by decide) (by decide) (by decide) (by decide) (by decide)⟩

theorem save_nonempty_disk (st : VSState) (h : st.docstore ≠ []) :
    (VSState.save st true).1.disk = some st.docstore := by
  unfold VSState.save hnswBackendSave
  rw [if_neg (by simp)]
  rw [show st.docstore.isEmpty = false by simpa using h]
  simp

theorem save_empty_state (st : VSState) (h : st.docstore = []) :
    VSState.save st true = (st, [LogLevel.info, LogLevel.error, LogLevel.warn]) := by
  unfold VSState.save hnswBackendSave
  rw [if_neg (by simp)]
  rw [show st.docstore.isEmpty = true by simpa using h]
  simp

/-- The amended save behavior of C7: an uninitialized store returns untouched
after a warn-level note; an initialized but empty index is still submitted to
the backend, whose failure is caught and logged at error and warn level (not
debug), leaving the state untouched; a non-empty index is persisted as a
snapshot from which `rebuildKeyIndexFromFile` recovers the key-to-ids map. -/
def SaveSpec (st : VSState) : Prop :=
  (VSState.save st false = (st, [LogLevel.warn])) ∧
  (st.docstore = [] →
    (VSState.save st true).1 = st ∧
    (VSState.save st true).2 = [LogLevel.info, LogLevel.error, LogLevel.warn]) ∧
  (st.docstore ≠ [] →
    (VSState.save st true).1.disk = some st.docstore ∧
    (st.keyIndex = rebuildKeyIndexFromFile st.docstore →
      rebuildKeyIndexFromFile ((VSState.save st true).1.disk.getD []) = st.keyIndex))

/-- C7.  Corrected form of the save claim, for every store state: the current
`save` has no empty-index guard, so an empty index leads to an attempted
backend save whose failure is logged at error level (no debug note), while a
non-empty index is persisted with metadata sufficient to rebuild the KeyIndex
on the next load. -/
theorem C7_save (st : VSState) : SaveSpec st := by
  refine ⟨rfl, ?_, ?_⟩
  · intro h
    rw [save_empty_state st h]
    exact ⟨rfl, rfl⟩
  · intro h
    refine ⟨save_nonempty_disk st h, ?_⟩
    intro hki
    rw [save_nonempty_disk st h]
    rw [Option.getD_some]
    exact hki.symm

/-- C7 counterexample.  On an (initialized) empty index, `save` is not a no-op
recording only a debug-level note: it attempts the backend save and records
info-, error- and warn-level notes and no debug note. -/
theorem C7_counterexample :
    (VSState.save vs0 true).2 = [LogLevel.info, LogLevel.error, LogLevel.warn] ∧
    LogLevel.debug ∉ (VSState.save vs0 true).2 ∧
    LogLevel.error ∈ (VSState.save vs0 true).2 := by
  decide

/-- C7 witness: the amended save theorem applied at a concrete non-trivial
state (it has no hypotheses, but the inner implications are dischargeable). -/
theorem C7_witness : SaveSpec c5State := C7_save c5State

/-- The amended persistence behavior around an emptying removal (C8): the
removal succeeds without saving, the disk keeps its previous snapshot, and the
next successful `addDocuments` that leaves the store non-empty writes the
fresh snapshot. -/
def RemoveLastSpec (embed : Embed) (st : VSState) (K : String) : Prop :=
  (VSState.removeByKey embed st K).1.disk = st.disk ∧
  (VSState.removeByKey embed st K).2 = Except.ok (kiGet st.keyIndex K).length ∧
  (VSState.removeByKey embed st K).1.docstore = [] ∧
  ∀ (docs : List DocumentToIndex) (st2 : VSState),
    (VSState.addDocuments embed st2 docs).2 = true →
    (VSState.addDocuments embed st2 docs).1.docstore ≠ [] →
    (VSState.addDocuments embed st2 docs).1.disk =
      some ((VSState.addDocuments embed st2 docs).1.docstore)

/-- C8.  When the removed key held every chunk of the index (the kept-chunk
set of the rebuild is empty), `removeByKey` succeeds without persisting: the
on-disk snapshot keeps its previous (last non-empty) contents, and only a
subsequent successful `addDocuments` leaving the store non-empty overwrites
it. -/
theorem C8_remove_last_not_persisted (embed : Embed) (st : VSState) (K : String)
    (hids : (kiGet st.keyIndex K).length ≠ 0)
    (hkept : st.docstore.filter
      (fun c => ¬ (kiGet st.keyIndex K).contains c.id) = []) :
    RemoveLastSpec embed st K := by
  have hrem : VSState.removeByKey embed st K =
      (⟨[], kiDelete st.keyIndex K, st.nextId, st.disk⟩,
       Except.ok (kiGet st.keyIndex K).length) := by
    unfold VSState.removeByKey
    rw [if_neg hids, hkept]
    rfl
  refine ⟨?_, ?_, ?_, ?_⟩
  · rw [hrem]
  · rw [hrem]
  · rw [hrem]
  · intro docs st2 hok hne
    unfold VSState.addDocuments at hok hne ⊢
    cases hb : embedBatch embed ((buildDocs docs st2.nextId).map (fun p => p.2.content)) with
    | none => simp [hb] at hok
    | some vecs =>
      simp only [hb] at hne ⊢
      have hfields := save_fields
        ⟨st2.docstore ++ mkChunks (buildDocs docs st2.nextId) vecs,
         (buildDocs docs st2.nextId).foldl
           (fun ki p => kiPush ki p.2.metadata.key p.1) st2.keyIndex,
         st2.nextId + docs.length, st2.disk⟩ true
      rw [hfields.1] at hne ⊢
      exact save_nonempty_disk _ hne

/-- C8 witness: the theorem applied at a state whose single key owns the only
chunk of the index. -/
theorem C8_witness :
    (kiGet c5State.keyIndex "a.md").length ≠ 0 ∧
    c5State.docstore.filter
      (fun c => ¬ (kiGet c5State.keyIndex "a.md").contains c.id) = [] ∧
    RemoveLastSpec embedOne c5State "a.md" :=
  ⟨by decide, by decide,
   C8_remove_last_not_persisted embedOne c5State "a.md" (by decide) (by decide)⟩

/-- The search post-condition of C4: scores non-increasing in the returned
order, every returned score at least the threshold, and the empty sequence
(not a failure) when nothing clears the threshold. -/
def SearchSpec (raws : List (ChunkRec × ℚ)) (minScore : ℚ) : Prop :=
  ((similaritySearch raws minScore).map SearchResult.score).Sorted (· ≥ ·) ∧
  (∀ r ∈ similaritySearch raws minScore, minScore ≤ r.score) ∧
  ((∀ p ∈ raws, 1 - p.2 < minScore) → similaritySearch raws minScore = [])

/-- C4.  Provided the ANN backend returns its raw results in non-decreasing
cosine-distance order (the HNSW contract), `similaritySearch` converts each
raw distance d to the score 1 - d, keeps only scores at or above
`minSimilarityScore` in the order produced by the ANN query — hence scores are
non-increasing — and returns the empty list when nothing clears the
threshold. -/
theorem C4_similaritySearch_ordering (raws : List (ChunkRec × ℚ)) (minScore : ℚ)
    (hsorted : (raws.map (fun p => p.2)).Sorted (· ≤ ·)) :
    SearchSpec raws minScore := by
  have hall : (raws.map (fun p => ({ chunk := p.1, score := 1 - p.2 } : SearchResult))).map
      SearchResult.score = raws.map (fun p => 1 - p.2) := by
    rw [List.map_map]
    rfl
  refine ⟨?_, ?_, ?_⟩
  · have hds : (raws.map (fun p => 1 - p.2)).Sorted (· ≥ ·) := by
      rw [List.Sorted, List.pairwise_map]
      rw [List.Sorted, List.pairwise_map] at hsorted
      exact hsorted.imp (fun h => by simp only [ge_iff_le]; linarith)
    unfold similaritySearch
    have hsub : List.Sublist
        (((raws.map (fun p => ({ chunk := p.1, score := 1 - p.2 } : SearchResult))).filter
          (fun r => minScore ≤ r.score)).map SearchResult.score)
        ((raws.map (fun p => ({ chunk := p.1, score := 1 - p.2 } : SearchResult))).map
          SearchResult.score) :=
      List.Sublist.map SearchResult.score (List.filter_sublist _)
    rw [hall] at hsub
    exact List.Pairwise.sublist hsub hds
  · intro r hr
    unfold similaritySearch at hr
    have := (List.mem_filter.mp hr).2
    simpa using this
  · intro hbelow
    unfold similaritySearch
    apply List.filter_eq_nil_iff.mpr
    intro r hr
    obtain ⟨p, hp, hpr⟩ := List.mem_map.mp hr
    have := hbelow p hp
    rw [← hpr]
    simp only [decide_eq_true_eq]
    intro hle
    exact (not_le.mpr this) hle

/-- Concrete raw ANN output for the C4 witness: distances ascending. -/
def c4Raws : List (ChunkRec × ℚ) := [(c5Chunk, 0), (c5Chunk, 1)]

/-- C4 witness: the ordering theorem applied to a concrete ascending raw
result list and threshold 0. -/
theorem C4_witness :
    ((c4Raws.map (fun p => p.2)).Sorted (· ≤ ·)) ∧
    SearchSpec c4Raws 0 :=
  ⟨by decide, C4_similaritySearch_ordering c4Raws 0 (by decide)⟩

theorem beq_false_of_ne {a b : String} (h : a ≠ b) : (a == b) = false := by
  simp [h]

theorem lookupDoc_cons (q : String × SyncRecord) (m : DocMap) (k : String) :
    lookupDoc (q :: m) k = if q.1 == k then some q.2 else lookupDoc m k := by
  unfold lookupDoc
  simp only [List.find?_cons]
  cases hq : (q.1 == k) with
  | true => simp
  | false => simp

theorem lookupDoc_append (m m' : DocMap) (k : String) :
    lookupDoc (m ++ m') k =
      match lookupDoc m k with
      | some r => some r
      | none => lookupDoc m' k := by
  induction m with
  | nil => simp [lookupDoc]
  | cons q m ih =>
    rw [List.cons_append, lookupDoc_cons, lookupDoc_cons]
    cases hq : (q.1 == k) with
    | true => simp
    | false => simpa using ih

theorem lookupDoc_none_of_any_false (m : DocMap) (k : String)
    (h : m.any (fun p => p.1 == k) = false) : lookupDoc m k = none := by
  rw [List.any_eq_false] at h
  unfold lookupDoc
  cases hf : m.find? (fun p => p.1 == k) with
  | none => rfl
  | some p => exact absurd (List.find?_some hf) (h p (List.mem_of_find?_eq_some hf))

theorem lookupDoc_map_set_self (m : DocMap) (k : String) (r : SyncRecord) :
    (lookupDoc m k).isSome →
    lookupDoc (m.map (fun p => if p.1 == k then (k, r) else p)) k = some r := by
  induction m with
  | nil => intro h; simp [lookupDoc] at h
  | cons q m ih =>
    intro h
    rw [List.map_cons]
    cases hqk : (q.1 == k) with
    | true =>
      rw [if_pos rfl]
      rw [lookupDoc_cons]
      simp
    | false =>
      rw [if_neg Bool.false_ne_true]
      rw [lookupDoc_cons, hqk, if_neg Bool.false_ne_true]
      apply ih
      rw [lookupDoc_cons, hqk, if_neg Bool.false_ne_true] at h
      exact h

theorem lookupDoc_map_set_ne (m : DocMap) (k k' : String) (r : SyncRecord)
    (hne : k' ≠ k) :
    lookupDoc (m.map (fun p => if p.1 == k then (k, r) else p)) k' = lookupDoc m k' := by
  induction m with
  | nil => rfl
  | cons q m ih =>
    rw [List.map_cons]
    cases hqk : (q.1 == k) with
    | true =>
      have hq1 : q.1 = k := by simpa using hqk
      rw [if_pos rfl]
      rw [lookupDoc_cons, lookupDoc_cons]
      rw [show ((k, r).1 == k') = false from beq_false_of_ne (Ne.symm hne)]
      rw [show (q.1 == k') = false by rw [hq1]; exact beq_false_of_ne (Ne.symm hne)]
      rw [if_neg Bool.false_ne_true, if_neg Bool.false_ne_true]
      exact ih
    | false =>
      rw [if_neg Bool.false_ne_true]
      rw [lookupDoc_cons, lookupDoc_cons]
      cases hq' : (q.1 == k') with
      | true => simp
      | false =>
        rw [if_neg Bool.false_ne_true, if_neg Bool.false_ne_true]
        exact ih

theorem lookupDoc_setDoc_self (m : DocMap) (k : String) (r : SyncRecord) :
    lookupDoc (setDoc m k r) k = some r := by
  unfold setDoc
  by_cases hany : m.any (fun p => p.1 == k)
  · rw [if_pos hany]
    apply lookupDoc_map_set_self
    rw [lookupDoc_isSome_iff]
    rw [List.any_eq_true] at hany
    obtain ⟨p, hp, hpk⟩ := hany
    exact List.mem_map.mpr ⟨p, hp, by simpa using hpk⟩
  · rw [if_neg hany]
    rw [lookupDoc_append, lookupDoc_none_of_any_false m k (by revert hany; cases m.any (fun p => p.1 == k) <;> simp),
      lookupDoc_cons]
    simp

theorem lookupDoc_setDoc_ne (m : DocMap) (k k' : String) (r : SyncRecord)
    (hne : k' ≠ k) : lookupDoc (setDoc m k r) k' = lookupDoc m k' := by
  unfold setDoc
  by_cases hany : m.any (fun p => p.1 == k)
  · rw [if_pos hany]
    exact lookupDoc_map_set_ne m k k' r hne
  · rw [if_neg hany]
    rw [lookupDoc_append]
    rw [show lookupDoc [(k, r)] k' = none by
      rw [lookupDoc_cons]
      rw [show ((k, r).1 == k') = false from beq_false_of_ne (Ne.symm hne)]
      rw [if_neg Bool.false_ne_true]
      rfl]
    cases h : lookupDoc m k' <;> simp

theorem lookupDoc_eraseDoc_self (m : DocMap) (k : String) :
    lookupDoc (eraseDoc m k) k = none := by
  unfold eraseDoc lookupDoc
  cases hf : (m.filter (fun p => ¬ p.1 == k)).find? (fun p => p.1 == k) with
  | none => rfl
  | some p =>
    have hmem := List.mem_of_find?_eq_some hf
    have hpk := List.find?_some hf
    have := (List.mem_filter.mp hmem).2
    rw [hpk] at this
    simp at this

theorem lookupDoc_eraseDoc_ne (m : DocMap) (k k' : String) (hne : k' ≠ k) :
    lookupDoc (eraseDoc m k) k' = lookupDoc m k' := by
  unfold eraseDoc
  induction m with
  | nil => rfl
  | cons q m ih =>
    cases hqk : (q.1 == k) with
    | true =>
      have hq1 : q.1 = k := by simpa using hqk
      rw [List.filter_cons_of_neg (by simp [hqk])]
      rw [ih, lookupDoc_cons]
      rw [show (q.1 == k') = false by rw [hq1]; exact beq_false_of_ne (Ne.symm hne)]
      rw [if_neg Bool.false_ne_true]
    | false =>
      rw [List.filter_cons_of_pos (by simp [hqk])]
      rw [lookupDoc_cons, lookupDoc_cons]
      cases hq' : (q.1 == k') with
      | true => simp
      | false =>
        rw [if_neg Bool.false_ne_true, if_neg Bool.false_ne_true]
        exact ih

theorem setDoc_keys_nodup (m : DocMap) (k : String) (r : SyncRecord)
    (h : (m.map (fun p => p.1)).Nodup) :
    ((setDoc m k r).map (fun p => p.1)).Nodup := by
  unfold setDoc
  by_cases hany : m.any (fun p => p.1 == k)
  · rw [if_pos hany]
    have heq : (m.map (fun p => if p.1 == k then (k, r) else p)).map (fun p => p.1)
        = m.map (fun p => p.1) := by
      rw [List.map_map]
      apply List.map_congr_left
      intro p hp
      show (if (p.1 == k) = true then (k, r) else p).1 = p.1
      cases hpk : (p.1 == k) with
      | true =>
        have hp1 : p.1 = k := by simpa using hpk
        rw [if_pos rfl]
        exact hp1.symm
      | false =>
        rw [if_neg Bool.false_ne_true]
    rw [heq]
    exact h
  · rw [if_neg hany]
    rw [List.map_append]
    simp only [List.map_cons, List.map_nil]
    rw [List.nodup_append]
    refine ⟨h, List.nodup_singleton k, ?_⟩
    intro a ha hb
    have hak : a = k := by simpa using hb
    obtain ⟨p, hp, hpa⟩ := List.mem_map.mp ha
    have hfalse : m.any (fun p => p.1 == k) = false := by
      revert hany; cases m.any (fun p => p.1 == k) <;> simp
    rw [List.any_eq_false] at hfalse
    have hcontra := hfalse p hp
    rw [hpa, hak] at hcontra
    simp at hcontra

theorem eraseDoc_keys_nodup (m : DocMap) (k : String)
    (h : (m.map (fun p => p.1)).Nodup) :
    ((eraseDoc m k).map (fun p => p.1)).Nodup := by
  unfold eraseDoc
  exact List.Nodup.sublist (List.Sublist.map _ (List.filter_sublist m)) h

theorem kiHas_append_single (ki : KeyIndex) (K k' : String) (ids : List Nat) :
    kiHas (ki ++ [(K, ids)]) k' = (kiHas ki k' || (K == k')) := by
  unfold kiHas
  rw [List.any_append]
  simp

theorem kiGet_append_ne (ki : KeyIndex) (K k' : String) (ids : List Nat)
    (hne : k' ≠ K) : kiGet (ki ++ [(K, ids)]) k' = kiGet ki k' := by
  unfold kiGet
  induction ki with
  | nil => simp [beq_false_of_ne (Ne.symm hne)]
  | cons p ki ih =>
    simp only [List.cons_append, List.find?_cons]
    cases hp : (p.1 == k') with
    | true => simp
    | false => simpa using ih

theorem kiHas_kiDelete_self (ki : KeyIndex) (K : String) :
    kiHas (kiDelete ki K) K = false := by
  unfold kiHas kiDelete
  rw [List.any_eq_false]
  intro p hp
  have := (List.mem_filter.mp hp).2
  simpa using this

theorem kiHas_kiDelete_ne (ki : KeyIndex) (K k' : String) (hne : k' ≠ K) :
    kiHas (kiDelete ki K) k' = kiHas ki k' := by
  unfold kiHas kiDelete
  induction ki with
  | nil => rfl
  | cons p ki ih =>
    by_cases hpK : p.1 == K
    · rw [List.filter_cons_of_neg (by simpa using hpK)]
      have hp1 : p.1 = K := by simpa using hpK
      rw [ih]
      simp [hp1, beq_false_of_ne (Ne.symm hne)]
    · rw [List.filter_cons_of_pos (by simpa using hpK)]
      simp only [List.any_cons]
      rw [ih]

theorem kiGet_kiDelete_ne (ki : KeyIndex) (K k' : String) (hne : k' ≠ K) :
    kiGet (kiDelete ki K) k' = kiGet ki k' := by
  unfold kiGet kiDelete
  induction ki with
  | nil => rfl
  | cons p ki ih =>
    by_cases hpK : p.1 == K
    · rw [List.filter_cons_of_neg (by simpa using hpK)]
      have hp1 : p.1 = K := by simpa using hpK
      rw [ih]
      simp only [List.find?_cons]
      rw [show (p.1 == k') = false by rw [hp1]; exact beq_false_of_ne (Ne.symm hne)]
    · rw [List.filter_cons_of_pos (by simpa using hpK)]
      simp only [List.find?_cons]
      cases hp' : (p.1 == k') with
      | true => simp
      | false => simpa using ih

theorem kiDelete_keys_nodup (ki : KeyIndex) (K : String)
    (h : (ki.map (fun p => p.1)).Nodup) :
    ((kiDelete ki K).map (fun p => p.1)).Nodup := by
  unfold kiDelete
  exact List.Nodup.sublist (List.Sublist.map _ (List.filter_sublist ki)) h

theorem kiHas_false_of_forall_ne (ki : KeyIndex) (K : String)
    (h : ∀ p ∈ ki, p.1 ≠ K) : kiHas ki K = false :=
  kiHas_eq_false_of_absent ki K h

theorem forall_ne_of_kiHas_false (ki : KeyIndex) (K : String)
    (h : kiHas ki K = false) : ∀ p ∈ ki, p.1 ≠ K := by
  unfold kiHas at h
  rw [List.any_eq_false] at h
  intro p hp
  simpa using h p hp

theorem kiGet_nonempty_of_has (ki : KeyIndex) (K : String)
    (hinv : ∀ p ∈ ki, p.2 ≠ []) (h : kiHas ki K = true) :
    kiGet ki K ≠ [] := by
  unfold kiHas at h
  rw [List.any_eq_true] at h
  obtain ⟨p0, hp0, hp0k⟩ := h
  unfold kiGet
  cases hf : ki.find? (fun p => p.1 == K) with
  | none =>
    rw [List.find?_eq_none] at hf
    exact absurd hp0k (hf p0 hp0)
  | some p =>
    have hmem := List.mem_of_find?_eq_some hf
    exact hinv p hmem

theorem kiGet_empty_of_not_has (ki : KeyIndex) (K : String)
    (h : kiHas ki K = false) : kiGet ki K = [] :=
  kiGet_absent ki K (forall_ne_of_kiHas_false ki K h)

/-- Synchronization metrics (types/index.ts `SyncMetrics`); the wall-clock
fields `lastSyncDate` and `duration` are elided. -/
structure SyncMetrics where
  documentsScanned : Nat
  documentsAdded : Nat
  documentsModified : Nat
  documentsDeleted : Nat
  documentsUnchanged : Nat
  errors : List (String × String)
deriving DecidableEq, Repr

/-- The `mode` parameter of `performSync`. -/
inductive SyncMode
  | full
  | incremental
deriving DecidableEq, Repr

/-- The `DocumentToIndex` list built by `SyncService.indexDocument` from the
chunker output (sync-service.ts lines 144-153). -/
def toIndexDocs (key etag : String) (chunks : List String) : List DocumentToIndex :=
  chunks.enum.map (fun p =>
    ⟨p.2, ⟨key, etag, p.1, chunks.length, "s3-bucket-" ++ key⟩⟩)

/-- Content resolution of `SyncService.indexDocument` (lines 132-134): load
the content unless a non-empty content is already attached (JS truthiness: an
empty attached string triggers a reload). -/
def resolveContent (fetch : String → Except String String) (doc : S3Document) :
    Except String String :=
  match doc.content with
  | some c => if c = "" then fetch doc.key else Except.ok c
  | none => fetch doc.key

/-- `SyncService.indexDocument` (sync-service.ts lines 130-168): resolve the
content, reject empty content, chunk, add to the vector store and update the
sync-state entry.  The vector-store state is returned even when the result is
an error, because a failing embedding batch leaves `this.vectorStore` mutated;
the sync-state map is only updated on success. -/
def indexDocument (fetch : String → Except String String)
    (chunker : String → List String) (embed : Embed)
    (ss : DocMap) (vs : VSState) (doc : S3Document) :
    DocMap × VSState × Except String Nat :=
  match resolveContent fetch doc with
  | Except.error e => (ss, vs, Except.error e)
  | Except.ok content =>
    if content = "" then (ss, vs, Except.error ("No content for " ++ doc.key))
    else
      let chunks := chunker content
      match VSState.addDocuments embed vs (toIndexDocs doc.key doc.etag chunks) with
      | (vs1, false) => (ss, vs1, Except.error "embedding failed")
      | (vs1, true) =>
        (setDoc ss doc.key
          ⟨doc.key, doc.etag, doc.lastModified, chunks.length, "indexed"⟩,
         vs1, Except.ok chunks.length)

/-- The deletion loop of incremental `performSync` (sync-service.ts lines
218-228): per-key try/catch; on success the sync-state entry is removed and
the deleted counter bumped, on failure the error list grows and the entry is
kept. -/
def processDeleted (embed : Embed) :
    List String → DocMap → VSState → SyncMetrics → DocMap × VSState × SyncMetrics
  | [], ss, vs, m => (ss, vs, m)
  | k :: ks, ss, vs, m =>
    match VSState.removeByKey embed vs k with
    | (vs1, Except.ok _) =>
      processDeleted embed ks (eraseDoc ss k) vs1
        { m with documentsDeleted := m.documentsDeleted + 1 }
    | (vs1, Except.error e) =>
      processDeleted embed ks ss vs1 { m with errors := m.errors ++ [(k, e)] }

/-- The modification loop of incremental `performSync` (sync-service.ts lines
231-241): remove then re-index, treated as delete+insert, with a per-document
try/catch. -/
def processModified (fetch : String → Except String String)
    (chunker : String → List String) (embed : Embed) :
    List S3Document → DocMap → VSState → SyncMetrics → DocMap × VSState × SyncMetrics
  | [], ss, vs, m => (ss, vs, m)
  | d :: ds, ss, vs, m =>
    match VSState.removeByKey embed vs d.key with
    | (vs1, Except.error e) =>
      processModified fetch chunker embed ds ss vs1
        { m with errors := m.errors ++ [(d.key, e)] }
    | (vs1, Except.ok _) =>
      match indexDocument fetch chunker embed ss vs1 d with
      | (ss1, vs2, Except.ok _) =>
        processModified fetch chunker embed ds ss1 vs2
          { m with documentsModified := m.documentsModified + 1 }
      | (ss1, vs2, Except.error e) =>
        processModified fetch chunker embed ds ss1 vs2
          { m with errors := m.errors ++ [(d.key, e)] }

/-- The addition loop, shared between incremental mode (sync-service.ts lines
244-253) and full mode (lines 203-212), whose bodies are identical: index the
document, bump the added counter, or record the per-document error. -/
def processNew (fetch : String → Except String String)
    (chunker : String → List String) (embed : Embed) :
    List S3Document → DocMap → VSState → SyncMetrics → DocMap × VSState × SyncMetrics
  | [], ss, vs, m => (ss, vs, m)
  | d :: ds, ss, vs, m =>
    match indexDocument fetch chunker embed ss vs d with
    | (ss1, vs2, Except.ok _) =>
      processNew fetch chunker embed ds ss1 vs2
        { m with documentsAdded := m.documentsAdded + 1 }
    | (ss1, vs2, Except.error e) =>
      processNew fetch chunker embed ds ss1 vs2
        { m with errors := m.errors ++ [(d.key, e)] }

/-- `SyncService.performSync` (sync-service.ts lines 173-274).  The whole body
runs inside one try/catch; every inner step catches its own failures (the
per-document loops record them in the error list, `saveSyncState` and
`vectorStore.save` catch internally), so the only throwing step reaching the
outer catch is the listing itself, which lands in the error list under the
synthetic key sync and skips the rest of the run.  The function then always
returns the metrics.  Full mode clears the store and state and re-adds every
listed document; incremental mode processes deletions, then modifications,
then additions, counts unchanged documents, and finally persists. -/
def performSync (fetch : String → Except String String)
    (chunker : String → List String) (embed : Embed) (mode : SyncMode)
    (listing : Except String (List S3Document)) (ss : DocMap) (vs : VSState) :
    DocMap × VSState × SyncMetrics :=
  let m0 : SyncMetrics := ⟨0, 0, 0, 0, 0, []⟩
  match listing with
  | Except.error e => (ss, vs, { m0 with errors := [("sync", e)] })
  | Except.ok s3Docs =>
    let m1 : SyncMetrics := { m0 with documentsScanned := s3Docs.length }
    match mode with
    | SyncMode.full =>
      let r := processNew fetch chunker embed s3Docs [] (VSState.clearAll vs) m1
      (r.1, (VSState.save r.2.1 true).1, r.2.2)
    | SyncMode.incremental =>
      let ch := detectChanges ss s3Docs
      let r1 := processDeleted embed ch.deleted ss vs m1
      let r2 := processModified fetch chunker embed ch.modified r1.1 r1.2.1 r1.2.2
      let r3 := processNew fetch chunker embed ch.new r2.1 r2.2.1 r2.2.2
      (r3.1, (VSState.save r3.2.1 true).1,
       { r3.2.2 with documentsUnchanged := ch.unchanged.length })

/-- C6.  Corrected propagation claim: no exception escapes a sync run at all.
A failure to even begin listing the remote store does abort the rest of the
run, but it is caught by the same try/catch and surfaced in the returned
metrics' error list under the synthetic key sync — through the same channel
as per-document failures, not as an exception to the caller — with the
in-memory states untouched and every counter zero. -/
theorem C6_listing_failure_caught (fetch : String → Except String String)
    (chunker : String → List String) (embed : Embed) (mode : SyncMode)
    (e : String) (ss : DocMap) (vs : VSState) :
    performSync fetch chunker embed mode (Except.error e) ss vs
      = (ss, vs, ⟨0, 0, 0, 0, 0, [("sync", e)]⟩) := rfl

/-- A fetcher returning fixed content. -/
def fetchOk : String → Except String String := fun _ => Except.ok "text"

/-- A one-chunk splitter. -/
def chunkOne : String → List String := fun s => [s]

/-- C6 counterexample.  A failing listing does not escape `performSync` as an
exception: the call completes normally, returning the failure inside the same
error list that holds per-document failures, under the key sync. -/
theorem C6_counterexample :
    performSync fetchOk chunkOne embedOne SyncMode.incremental
      (Except.error "listing failed") [] vs0
      = ([], vs0, ⟨0, 0, 0, 0, 0, [("sync", "listing failed")]⟩) := rfl

theorem errors_no_growth {l : List (String × String)} {x : String × String}
    {t : List (String × String)} (h : l ++ (x :: t) = l) : False := by
  have := congrArg List.length h
  simp at this

theorem processDeleted_errors_mono (embed : Embed) (ks : List String) :
    ∀ ss vs m, ∃ t,
      (processDeleted embed ks ss vs m).2.2.errors = m.errors ++ t := by
  induction ks with
  | nil => intro ss vs m; exact ⟨[], by simp [processDeleted]⟩
  | cons k ks ih =>
    intro ss vs m
    rcases hr : VSState.removeByKey embed vs k with ⟨vs1, res⟩
    cases res with
    | ok n =>
      obtain ⟨t, ht⟩ := ih (eraseDoc ss k) vs1
        { m with documentsDeleted := m.documentsDeleted + 1 }
      exact ⟨t, by simp only [processDeleted, hr]; simpa using ht⟩
    | error e =>
      obtain ⟨t, ht⟩ := ih ss vs1 { m with errors := m.errors ++ [(k, e)] }
      refine ⟨(k, e) :: t, ?_⟩
      simp only [processDeleted, hr]
      rw [ht]
      simp

theorem processModified_errors_mono (fetch : String → Except String String)
    (chunker : String → List String) (embed : Embed) (ds : List S3Document) :
    ∀ ss vs m, ∃ t,
      (processModified fetch chunker embed ds ss vs m).2.2.errors = m.errors ++ t := by
  induction ds with
  | nil => intro ss vs m; exact ⟨[], by simp [processModified]⟩
  | cons d ds ih =>
    intro ss vs m
    rcases hr : VSState.removeByKey embed vs d.key with ⟨vs1, res⟩
    cases res with
    | error e =>
      obtain ⟨t, ht⟩ := ih ss vs1 { m with errors := m.errors ++ [(d.key, e)] }
      refine ⟨(d.key, e) :: t, ?_⟩
      simp only [processModified, hr]
      rw [ht]
      simp
    | ok n =>
      rcases hi : indexDocument fetch chunker embed ss vs1 d with ⟨ss1, vs2, resI⟩
      cases resI with
      | ok cnt =>
        obtain ⟨t, ht⟩ := ih ss1 vs2
          { m with documentsModified := m.documentsModified + 1 }
        exact ⟨t, by simp only [processModified, hr, hi]; simpa using ht⟩
      | error e =>
        obtain ⟨t, ht⟩ := ih ss1 vs2 { m with errors := m.errors ++ [(d.key, e)] }
        refine ⟨(d.key, e) :: t, ?_⟩
        simp only [processModified, hr, hi]
        rw [ht]
        simp

theorem processNew_errors_mono (fetch : String → Except String String)
    (chunker : String → List String) (embed : Embed) (ds : List S3Document) :
    ∀ ss vs m, ∃ t,
      (processNew fetch chunker embed ds ss vs m).2.2.errors = m.errors ++ t := by
  induction ds with
  | nil => intro ss vs m; exact ⟨[], by simp [processNew]⟩
  | cons d ds ih =>
    intro ss vs m
    rcases hi : indexDocument fetch chunker embed ss vs d with ⟨ss1, vs2, resI⟩
    cases resI with
    | ok cnt =>
      obtain ⟨t, ht⟩ := ih ss1 vs2 { m with documentsAdded := m.documentsAdded + 1 }
      exact ⟨t, by simp only [processNew, hi]; simpa using ht⟩
    | error e =>
      obtain ⟨t, ht⟩ := ih ss1 vs2 { m with errors := m.errors ++ [(d.key, e)] }
      refine ⟨(d.key, e) :: t, ?_⟩
      simp only [processNew, hi]
      rw [ht]
      simp

theorem toIndexDocs_keys (key etag : String) (chunks : List String) :
    ∀ d ∈ toIndexDocs key etag chunks, d.metadata.key = key := by
  intro d hd
  obtain ⟨p, hp, hpd⟩ := List.mem_map.mp hd
  rw [← hpd]

theorem toIndexDocs_length (key etag : String) (chunks : List String) :
    (toIndexDocs key etag chunks).length = chunks.length := by
  unfold toIndexDocs
  rw [List.length_map, List.enum_length]

theorem indexDocument_ok_ss (fetch : String → Except String String)
    (chunker : String → List String) (embed : Embed)
    (ss : DocMap) (vs : VSState) (doc : S3Document)
    (ss' : DocMap) (vs' : VSState) (n : Nat)
    (h : indexDocument fetch chunker embed ss vs doc = (ss', vs', Except.ok n)) :
    ss' = setDoc ss doc.key ⟨doc.key, doc.etag, doc.lastModified, n, "indexed"⟩ := by
  unfold indexDocument at h
  cases hc : resolveContent fetch doc with
  | error e => simp only [hc] at h; simp at h
  | ok content =>
    simp only [hc] at h
    by_cases hemp : content = ""
    · rw [if_pos hemp] at h; simp at h
    · rw [if_neg hemp] at h
      rcases ha : VSState.addDocuments embed vs
          (toIndexDocs doc.key doc.etag (chunker content)) with ⟨vs1, flag⟩
      cases flag with
      | false => rw [ha] at h; simp at h
      | true =>
        rw [ha] at h
        simp only [Prod.mk.injEq] at h
        obtain ⟨h1, _, h3⟩ := h
        have hn : n = (chunker content).length := by
          have := h3
          injection this with hh
          exact hh.symm
        rw [← h1, hn]

theorem indexDocument_ok_ki (fetch : String → Except String String)
    (chunker : String → List String) (embed : Embed)
    (ss : DocMap) (vs : VSState) (doc : S3Document)
    (ss' : DocMap) (vs' : VSState) (n : Nat)
    (hchunker : ∀ s, s ≠ "" → chunker s ≠ [])
    (habs : ∀ p ∈ vs.keyIndex, p.1 ≠ doc.key)
    (h : indexDocument fetch chunker embed ss vs doc = (ss', vs', Except.ok n)) :
    ∃ ids : List Nat, ids ≠ [] ∧ ids.length = n ∧
      vs'.keyIndex = vs.keyIndex ++ [(doc.key, ids)] := by
  unfold indexDocument at h
  cases hc : resolveContent fetch doc with
  | error e => simp only [hc] at h; simp at h
  | ok content =>
    simp only [hc] at h
    by_cases hemp : content = ""
    · rw [if_pos hemp] at h; simp at h
    · rw [if_neg hemp] at h
      rcases ha : VSState.addDocuments embed vs
          (toIndexDocs doc.key doc.etag (chunker content)) with ⟨vs1, flag⟩
      cases flag with
      | false => rw [ha] at h; simp at h
      | true =>
        rw [ha] at h
        simp only [Prod.mk.injEq] at h
        obtain ⟨_, h2, h3⟩ := h
        have hn : n = (chunker content).length := by
          injection h3 with hh
          exact hh.symm
        have hchne : chunker content ≠ [] := hchunker content hemp
        have htne : toIndexDocs doc.key doc.etag (chunker content) ≠ [] := by
          intro hnil
          have := toIndexDocs_length doc.key doc.etag (chunker content)
          rw [hnil] at this
          simp at this
          exact hchne (List.length_eq_zero.mp this.symm)
        set tid := toIndexDocs doc.key doc.etag (chunker content) with htid
        have hwIkeys : ∀ q ∈ buildDocs tid vs.nextId, q.2.metadata.key = doc.key := by
          intro q hq
          have : q.2 ∈ (buildDocs tid vs.nextId).map (fun p => p.2) :=
            List.mem_map.mpr ⟨q, hq, rfl⟩
          rw [buildDocs_snd] at this
          exact toIndexDocs_keys doc.key doc.etag (chunker content) q.2 (htid ▸ this)
        have hbne : buildDocs tid vs.nextId ≠ [] := by
          intro hnil
          have := buildDocs_length tid vs.nextId
          rw [hnil] at this
          simp at this
          exact htne (List.length_eq_zero.mp this.symm)
        refine ⟨(buildDocs tid vs.nextId).map (fun q => q.1), ?_, ?_, ?_⟩
        · simpa using hbne
        · rw [List.length_map, buildDocs_length, htid, toIndexDocs_length, ← hn]
        · rw [← h2]
          cases hb : embedBatch embed ((buildDocs tid vs.nextId).map (fun p => p.2.content)) with
          | none =>
            exfalso
            have ha2 := ha
            unfold VSState.addDocuments at ha2
            simp only [hb] at ha2
            simp at ha2
          | some vecs =>
            have ha2 := ha
            unfold VSState.addDocuments at ha2
            simp only [hb] at ha2
            simp only [Prod.mk.injEq] at ha2
            rw [← ha2.1]
            have hfl := save_fields
              ⟨vs.docstore ++ mkChunks (buildDocs tid vs.nextId) vecs,
               (buildDocs tid vs.nextId).foldl
                 (fun ki p => kiPush ki p.2.metadata.key p.1) vs.keyIndex,
               vs.nextId + tid.length, vs.disk⟩ true
            rw [hfl.2.1]
            rw [foldPush_absent doc.key vs.keyIndex habs _ hwIkeys, if_neg hbne]

theorem indexDocument_error_ss (fetch : String → Except String String)
    (chunker : String → List String) (embed : Embed)
    (ss : DocMap) (vs : VSState) (doc : S3Document)
    (ss' : DocMap) (vs' : VSState) (e : String)
    (h : indexDocument fetch chunker embed ss vs doc = (ss', vs', Except.error e)) :
    ss' = ss := by
  unfold indexDocument at h
  cases hc : resolveContent fetch doc with
  | error e0 => simp only [hc, Prod.mk.injEq] at h; exact h.1.symm
  | ok content =>
    simp only [hc] at h
    by_cases hemp : content = ""
    · rw [if_pos hemp] at h; simp only [Prod.mk.injEq] at h; exact h.1.symm
    · rw [if_neg hemp] at h
      rcases ha : VSState.addDocuments embed vs
          (toIndexDocs doc.key doc.etag (chunker content)) with ⟨vs1, flag⟩
      cases flag with
      | false => rw [ha] at h; simp only [Prod.mk.injEq] at h; exact h.1.symm
      | true => rw [ha] at h; simp at h

theorem processDeleted_lookup (embed : Embed) (ks : List String) :
    ∀ ss vs m,
      (processDeleted embed ks ss vs m).2.2.errors = m.errors →
      ∀ k', lookupDoc (processDeleted embed ks ss vs m).1 k'
        = if k' ∈ ks then none else lookupDoc ss k' := by
  induction ks with
  | nil =>
    intro ss vs m _ k'
    simp [processDeleted]
  | cons k ks ih =>
    intro ss vs m herr k'
    rcases hr : VSState.removeByKey embed vs k with ⟨vs1, res⟩
    cases res with
    | ok n =>
      simp only [processDeleted, hr] at herr ⊢
      have ih' := ih (eraseDoc ss k) vs1
        { m with documentsDeleted := m.documentsDeleted + 1 } (by simpa using herr) k'
      rw [ih']
      by_cases hk : k' ∈ ks
      · rw [if_pos hk, if_pos (List.mem_cons_of_mem k hk)]
      · rw [if_neg hk]
        by_cases hkk : k' = k
        · subst hkk
          rw [lookupDoc_eraseDoc_self, if_pos (List.mem_cons_self k' ks)]
        · rw [lookupDoc_eraseDoc_ne _ _ _ hkk]
          rw [if_neg (by simp [List.mem_cons, hk, hkk])]
    | error e =>
      exfalso
      simp only [processDeleted, hr] at herr
      obtain ⟨t, ht⟩ := processDeleted_errors_mono embed ks ss vs1
        { m with errors := m.errors ++ [(k, e)] }
      rw [herr] at ht
      simp only [List.append_assoc, List.singleton_append] at ht
      exact errors_no_growth ht.symm

theorem processModified_spec (fetch : String → Except String String)
    (chunker : String → List String) (embed : Embed) (ds : List S3Document) :
    ∀ ss vs m,
      (processModified fetch chunker embed ds ss vs m).2.2.errors = m.errors →
      (ds.map S3Document.key).Nodup →
      (∀ k', k' ∉ ds.map S3Document.key →
        lookupDoc (processModified fetch chunker embed ds ss vs m).1 k'
          = lookupDoc ss k') ∧
      (∀ d ∈ ds, ∃ cc,
        lookupDoc (processModified fetch chunker embed ds ss vs m).1 d.key
          = some ⟨d.key, d.etag, d.lastModified, cc, "indexed"⟩) := by
  induction ds with
  | nil =>
    intro ss vs m _ _
    constructor
    · intro k' _; simp [processModified]
    · intro d hd; cases hd
  | cons d ds ih =>
    intro ss vs m herr hnodup
    have hsplit : d.key ∉ ds.map S3Document.key ∧ (ds.map S3Document.key).Nodup := by
      rw [List.map_cons, List.nodup_cons] at hnodup
      exact hnodup
    have hdnotin := hsplit.1
    have htail := hsplit.2
    rcases hr : VSState.removeByKey embed vs d.key with ⟨vs1, res⟩
    cases res with
    | error e =>
      exfalso
      simp only [processModified, hr] at herr
      obtain ⟨t, ht⟩ := processModified_errors_mono fetch chunker embed ds ss vs1
        { m with errors := m.errors ++ [(d.key, e)] }
      rw [herr] at ht
      simp only [List.append_assoc, List.singleton_append] at ht
      exact errors_no_growth ht.symm
    | ok n =>
      rcases hi : indexDocument fetch chunker embed ss vs1 d with ⟨ss1, vs2, resI⟩
      cases resI with
      | error e =>
        exfalso
        simp only [processModified, hr, hi] at herr
        obtain ⟨t, ht⟩ := processModified_errors_mono fetch chunker embed ds ss1 vs2
          { m with errors := m.errors ++ [(d.key, e)] }
        rw [herr] at ht
        simp only [List.append_assoc, List.singleton_append] at ht
        exact errors_no_growth ht.symm
      | ok cnt =>
        have hss1 := indexDocument_ok_ss fetch chunker embed ss vs1 d ss1 vs2 cnt hi
        simp only [processModified, hr, hi] at herr ⊢
        have ih' := ih ss1 vs2
          { m with documentsModified := m.documentsModified + 1 } (by simpa using herr) htail
        constructor
        · intro k' hk'
          have hk'ds : k' ∉ ds.map S3Document.key := by
            intro hmem
            exact hk' (List.mem_cons_of_mem _ hmem)
          have hk'd : k' ≠ d.key := by
            intro heq
            exact hk' (by rw [heq]; exact List.mem_cons_self _ _)
          rw [ih'.1 k' hk'ds, hss1, lookupDoc_setDoc_ne ss d.key k' _ hk'd]
        · intro d' hd'
          rcases List.mem_cons.mp hd' with hd0 | hd0
          · subst hd0
            refine ⟨cnt, ?_⟩
            rw [ih'.1 d'.key hdnotin, hss1, lookupDoc_setDoc_self]
          · exact ih'.2 d' hd0

theorem processNew_spec (fetch : String → Except String String)
    (chunker : String → List String) (embed : Embed) (ds : List S3Document) :
    ∀ ss vs m,
      (processNew fetch chunker embed ds ss vs m).2.2.errors = m.errors →
      (ds.map S3Document.key).Nodup →
      (∀ k', k' ∉ ds.map S3Document.key →
        lookupDoc (processNew fetch chunker embed ds ss vs m).1 k'
          = lookupDoc ss k') ∧
      (∀ d ∈ ds, ∃ cc,
        lookupDoc (processNew fetch chunker embed ds ss vs m).1 d.key
          = some ⟨d.key, d.etag, d.lastModified, cc, "indexed"⟩) := by
  induction ds with
  | nil =>
    intro ss vs m _ _
    constructor
    · intro k' _; simp [processNew]
    · intro d hd; cases hd
  | cons d ds ih =>
    intro ss vs m herr hnodup
    have hsplit : d.key ∉ ds.map S3Document.key ∧ (ds.map S3Document.key).Nodup := by
      rw [List.map_cons, List.nodup_cons] at hnodup
      exact hnodup
    have hdnotin := hsplit.1
    have htail := hsplit.2
    rcases hi : indexDocument fetch chunker embed ss vs d with ⟨ss1, vs2, resI⟩
    cases resI with
    | error e =>
      exfalso
      simp only [processNew, hi] at herr
      obtain ⟨t, ht⟩ := processNew_errors_mono fetch chunker embed ds ss1 vs2
        { m with errors := m.errors ++ [(d.key, e)] }
      rw [herr] at ht
      simp only [List.append_assoc, List.singleton_append] at ht
      exact errors_no_growth ht.symm
    | ok cnt =>
      have hss1 := indexDocument_ok_ss fetch chunker embed ss vs d ss1 vs2 cnt hi
      simp only [processNew, hi] at herr ⊢
      have ih' := ih ss1 vs2
        { m with documentsAdded := m.documentsAdded + 1 } (by simpa using herr) htail
      constructor
      · intro k' hk'
        have hk'ds : k' ∉ ds.map S3Document.key := by
          intro hmem
          exact hk' (List.mem_cons_of_mem _ hmem)
        have hk'd : k' ≠ d.key := by
          intro heq
          exact hk' (by rw [heq]; exact List.mem_cons_self _ _)
        rw [ih'.1 k' hk'ds, hss1, lookupDoc_setDoc_ne ss d.key k' _ hk'd]
      · intro d' hd'
        rcases List.mem_cons.mp hd' with hd0 | hd0
        · subst hd0
          refine ⟨cnt, ?_⟩
          rw [ih'.1 d'.key hdnotin, hss1, lookupDoc_setDoc_self]
        · exact ih'.2 d' hd0

/-- Well-formedness of a JS-object map: pairwise-distinct keys. -/
def wfDocMap (m : DocMap) : Prop := (m.map (fun p => p.1)).Nodup

/-- Well-formedness of the key index as maintained by the store: distinct
keys and no empty id list (entries are only created by a push). -/
def VSInv (vs : VSState) : Prop :=
  ((vs.keyIndex.map (fun p => p.1)).Nodup) ∧ ∀ p ∈ vs.keyIndex, p.2 ≠ []

/-- The claimed post-sync invariant: the sync state and the key index know the
same keys, and each record's chunkCount equals the number of ids the key index
holds for its key. -/
def ConsistentStates (ss : DocMap) (vs : VSState) : Prop :=
  (∀ k, (lookupDoc ss k).isSome ↔ kiHas vs.keyIndex k = true) ∧
  (∀ k r, lookupDoc ss k = some r → r.chunkCount = (kiGet vs.keyIndex k).length)

/-- The combined well-formedness and consistency invariant. -/
def SyncInv (ss : DocMap) (vs : VSState) : Prop :=
  wfDocMap ss ∧ VSInv vs ∧ ConsistentStates ss vs

theorem removeByKey_ok_cases (embed : Embed) (vs : VSState) (k : String)
    (vs' : VSState) (n : Nat)
    (h : VSState.removeByKey embed vs k = (vs', Except.ok n)) :
    (kiGet vs.keyIndex k = [] ∧ vs' = vs) ∨
    (kiGet vs.keyIndex k ≠ [] ∧ vs'.keyIndex = kiDelete vs.keyIndex k) := by
  unfold VSState.removeByKey at h
  by_cases hlen : (kiGet vs.keyIndex k).length = 0
  · rw [if_pos hlen] at h
    simp only [Prod.mk.injEq] at h
    exact Or.inl ⟨List.length_eq_zero.mp hlen, h.1.symm⟩
  · rw [if_neg hlen] at h
    right
    refine ⟨fun hnil => hlen (by rw [hnil]; rfl), ?_⟩
    cases hb : embedBatch embed
        ((vs.docstore.filter
          (fun c => ¬ (kiGet vs.keyIndex k).contains c.id)).map (fun c => c.text)) with
    | none => simp only [hb] at h; simp at h
    | some vecs =>
      simp only [hb] at h
      simp only [Prod.mk.injEq] at h
      rw [← h.1]
      by_cases hkept : (vs.docstore.filter
          (fun c => ¬ (kiGet vs.keyIndex k).contains c.id)).length > 0
      · rw [if_pos hkept]
        exact (save_fields _ true).2.1
      · rw [if_neg hkept]

theorem SyncInv_erase_remove (embed : Embed) (ss : DocMap) (vs : VSState)
    (k : String) (vs' : VSState) (n : Nat)
    (hinv : SyncInv ss vs)
    (h : VSState.removeByKey embed vs k = (vs', Except.ok n)) :
    SyncInv (eraseDoc ss k) vs' := by
  obtain ⟨hwf, ⟨hkin, hkne⟩, hcon1, hcon2⟩ := hinv
  rcases removeByKey_ok_cases embed vs k vs' n h with ⟨hempty, hvs⟩ | ⟨hne, hki⟩
  · subst hvs
    refine ⟨eraseDoc_keys_nodup ss k hwf, ⟨hkin, hkne⟩, ?_, ?_⟩
    · intro k'
      by_cases hk : k' = k
      · subst hk
        rw [lookupDoc_eraseDoc_self]
        constructor
        · intro hs; simp at hs
        · intro hhas
          exact absurd hempty (kiGet_nonempty_of_has vs'.keyIndex k' hkne hhas)
      · rw [lookupDoc_eraseDoc_ne ss k k' hk]
        exact hcon1 k'
    · intro k' r hr
      by_cases hk : k' = k
      · subst hk; rw [lookupDoc_eraseDoc_self] at hr; cases hr
      · rw [lookupDoc_eraseDoc_ne ss k k' hk] at hr
        exact hcon2 k' r hr
  · refine ⟨eraseDoc_keys_nodup ss k hwf, ?_, ?_, ?_⟩
    · rw [VSInv] at *
      refine ⟨?_, ?_⟩
      · rw [hki]; exact kiDelete_keys_nodup vs.keyIndex k hkin
      · rw [hki]
        intro p hp
        exact hkne p (List.mem_filter.mp hp).1
    · intro k'
      by_cases hk : k' = k
      · subst hk
        rw [lookupDoc_eraseDoc_self, hki, kiHas_kiDelete_self]
        simp
      · rw [lookupDoc_eraseDoc_ne ss k k' hk, hki, kiHas_kiDelete_ne vs.keyIndex k k' hk]
        exact hcon1 k'
    · intro k' r hr
      by_cases hk : k' = k
      · subst hk; rw [lookupDoc_eraseDoc_self] at hr; cases hr
      · rw [lookupDoc_eraseDoc_ne ss k k' hk] at hr
        rw [hki, kiGet_kiDelete_ne vs.keyIndex k k' hk]
        exact hcon2 k' r hr

theorem SyncInv_index_new (fetch : String → Except String String)
    (chunker : String → List String) (embed : Embed)
    (ss : DocMap) (vs : VSState) (d : S3Document)
    (ss' : DocMap) (vs' : VSState) (n : Nat)
    (hchunker : ∀ s, s ≠ "" → chunker s ≠ [])
    (hinv : SyncInv ss vs) (hnone : lookupDoc ss d.key = none)
    (h : indexDocument fetch chunker embed ss vs d = (ss', vs', Except.ok n)) :
    SyncInv ss' vs' := by
  obtain ⟨hwf, ⟨hkin, hkne⟩, hcon1, hcon2⟩ := hinv
  have hnohas : kiHas vs.keyIndex d.key = false := by
    cases hhas : kiHas vs.keyIndex d.key with
    | false => rfl
    | true =>
      have := (hcon1 d.key).mpr hhas
      rw [hnone] at this
      simp at this
  have habs := forall_ne_of_kiHas_false vs.keyIndex d.key hnohas
  have hss := indexDocument_ok_ss fetch chunker embed ss vs d ss' vs' n h
  obtain ⟨ids, hidsne, hidslen, hki⟩ :=
    indexDocument_ok_ki fetch chunker embed ss vs d ss' vs' n hchunker habs h
  refine ⟨?_, ⟨?_, ?_⟩, ?_, ?_⟩
  · rw [hss]; exact setDoc_keys_nodup ss d.key _ hwf
  · rw [hki, List.map_append]
    simp only [List.map_cons, List.map_nil]
    rw [List.nodup_append]
    refine ⟨hkin, List.nodup_singleton _, ?_⟩
    intro a ha hb
    have hak : a = d.key := by simpa using hb
    obtain ⟨p, hp, hpa⟩ := List.mem_map.mp ha
    exact habs p hp (by rw [hpa, hak])
  · rw [hki]
    intro p hp
    rcases List.mem_append.mp hp with hp0 | hp0
    · exact hkne p hp0
    · have : p = (d.key, ids) := by simpa using hp0
      rw [this]
      exact hidsne
  · intro k'
    by_cases hk : k' = d.key
    · subst hk
      rw [hss, lookupDoc_setDoc_self, hki, kiHas_append_single]
      simp
    · rw [hss, lookupDoc_setDoc_ne ss d.key k' _ hk, hki, kiHas_append_single]
      rw [show (d.key == k') = false from beq_false_of_ne (fun hh => hk hh.symm)]
      simp only [Bool.or_false]
      exact hcon1 k'
  · intro k' r hr
    by_cases hk : k' = d.key
    · subst hk
      rw [hss, lookupDoc_setDoc_self] at hr
      rw [hki, kiGet_append_absent vs.keyIndex d.key habs ids]
      cases hr
      simpa using hidslen.symm
    · rw [hss, lookupDoc_setDoc_ne ss d.key k' _ hk] at hr
      rw [hki, kiGet_append_ne vs.keyIndex d.key k' ids hk]
      exact hcon2 k' r hr

theorem SyncInv_index_modified (fetch : String → Except String String)
    (chunker : String → List String) (embed : Embed)
    (ss : DocMap) (vs : VSState) (d : S3Document)
    (vs1 : VSState) (nr : Nat) (ss' : DocMap) (vs' : VSState) (n : Nat)
    (hchunker : ∀ s, s ≠ "" → chunker s ≠ [])
    (hinv : SyncInv ss vs) (hsome : (lookupDoc ss d.key).isSome)
    (hrem : VSState.removeByKey embed vs d.key = (vs1, Except.ok nr))
    (h : indexDocument fetch chunker embed ss vs1 d = (ss', vs', Except.ok n)) :
    SyncInv ss' vs' := by
  obtain ⟨hwf, ⟨hkin, hkne⟩, hcon1, hcon2⟩ := hinv
  have hhas : kiHas vs.keyIndex d.key = true := (hcon1 d.key).mp hsome
  have hget : kiGet vs.keyIndex d.key ≠ [] :=
    kiGet_nonempty_of_has vs.keyIndex d.key hkne hhas
  rcases removeByKey_ok_cases embed vs d.key vs1 nr hrem with ⟨hempty, _⟩ | ⟨_, hki1⟩
  · exact absurd hempty hget
  have habs1 : ∀ p ∈ vs1.keyIndex, p.1 ≠ d.key := by
    rw [hki1]
    intro p hp
    have := (List.mem_filter.mp hp).2
    simpa using this
  have hss := indexDocument_ok_ss fetch chunker embed ss vs1 d ss' vs' n h
  obtain ⟨ids, hidsne, hidslen, hki⟩ :=
    indexDocument_ok_ki fetch chunker embed ss vs1 d ss' vs' n hchunker habs1 h
  refine ⟨?_, ⟨?_, ?_⟩, ?_, ?_⟩
  · rw [hss]; exact setDoc_keys_nodup ss d.key _ hwf
  · rw [hki, hki1, List.map_append]
    simp only [List.map_cons, List.map_nil]
    rw [List.nodup_append]
    refine ⟨kiDelete_keys_nodup vs.keyIndex d.key hkin, List.nodup_singleton _, ?_⟩
    intro a ha hb
    have hak : a = d.key := by simpa using hb
    obtain ⟨p, hp, hpa⟩ := List.mem_map.mp ha
    have hp2 := (List.mem_filter.mp hp).2
    rw [hpa, hak] at hp2
    simp at hp2
  · rw [hki, hki1]
    intro p hp
    rcases List.mem_append.mp hp with hp0 | hp0
    · exact hkne p (List.mem_filter.mp hp0).1
    · have : p = (d.key, ids) := by simpa using hp0
      rw [this]
      exact hidsne
  · intro k'
    by_cases hk : k' = d.key
    · subst hk
      rw [hss, lookupDoc_setDoc_self, hki, kiHas_append_single]
      simp
    · rw [hss, lookupDoc_setDoc_ne ss d.key k' _ hk, hki, hki1, kiHas_append_single]
      rw [show (d.key == k') = false from beq_false_of_ne (fun hh => hk hh.symm)]
      simp only [Bool.or_false]
      rw [kiHas_kiDelete_ne vs.keyIndex d.key k' hk]
      exact hcon1 k'
  · intro k' r hr
    by_cases hk : k' = d.key
    · subst hk
      rw [hss, lookupDoc_setDoc_self] at hr
      rw [hki, kiGet_append_absent vs1.keyIndex d.key habs1 ids]
      cases hr
      simpa using hidslen.symm
    · rw [hss, lookupDoc_setDoc_ne ss d.key k' _ hk] at hr
      rw [hki, kiGet_append_ne vs1.keyIndex d.key k' ids hk, hki1,
        kiGet_kiDelete_ne vs.keyIndex d.key k' hk]
      exact hcon2 k' r hr

theorem processDeleted_inv (embed : Embed) (ks : List String) :
    ∀ ss vs m,
      SyncInv ss vs →
      (processDeleted embed ks ss vs m).2.2.errors = m.errors →
      SyncInv (processDeleted embed ks ss vs m).1
        (processDeleted embed ks ss vs m).2.1 := by
  induction ks with
  | nil => intro ss vs m hinv _; simpa [processDeleted] using hinv
  | cons k ks ih =>
    intro ss vs m hinv herr
    rcases hr : VSState.removeByKey embed vs k with ⟨vs1, res⟩
    cases res with
    | ok n =>
      simp only [processDeleted, hr] at herr ⊢
      exact ih (eraseDoc ss k) vs1 _
        (SyncInv_erase_remove embed ss vs k vs1 n hinv hr) (by simpa using herr)
    | error e =>
      exfalso
      simp only [processDeleted, hr] at herr
      obtain ⟨t, ht⟩ := processDeleted_errors_mono embed ks ss vs1
        { m with errors := m.errors ++ [(k, e)] }
      rw [herr] at ht
      simp only [List.append_assoc, List.singleton_append] at ht
      exact errors_no_growth ht.symm

theorem processModified_inv (fetch : String → Except String String)
    (chunker : String → List String) (embed : Embed)
    (hchunker : ∀ s, s ≠ "" → chunker s ≠ []) (ds : List S3Document) :
    ∀ ss vs m,
      SyncInv ss vs →
      (∀ d ∈ ds, (lookupDoc ss d.key).isSome) →
      (processModified fetch chunker embed ds ss vs m).2.2.errors = m.errors →
      SyncInv (processModified fetch chunker embed ds ss vs m).1
        (processModified fetch chunker embed ds ss vs m).2.1 := by
  induction ds with
  | nil => intro ss vs m hinv _ _; simpa [processModified] using hinv
  | cons d ds ih =>
    intro ss vs m hinv hsome herr
    rcases hr : VSState.removeByKey embed vs d.key with ⟨vs1, res⟩
    cases res with
    | error e =>
      exfalso
      simp only [processModified, hr] at herr
      obtain ⟨t, ht⟩ := processModified_errors_mono fetch chunker embed ds ss vs1
        { m with errors := m.errors ++ [(d.key, e)] }
      rw [herr] at ht
      simp only [List.append_assoc, List.singleton_append] at ht
      exact errors_no_growth ht.symm
    | ok n =>
      rcases hi : indexDocument fetch chunker embed ss vs1 d with ⟨ss1, vs2, resI⟩
      cases resI with
      | error e =>
        exfalso
        simp only [processModified, hr, hi] at herr
        obtain ⟨t, ht⟩ := processModified_errors_mono fetch chunker embed ds ss1 vs2
          { m with errors := m.errors ++ [(d.key, e)] }
        rw [herr] at ht
        simp only [List.append_assoc, List.singleton_append] at ht
        exact errors_no_growth ht.symm
      | ok cnt =>
        simp only [processModified, hr, hi] at herr ⊢
        have hinv1 := SyncInv_index_modified fetch chunker embed ss vs d vs1 n ss1 vs2 cnt
          hchunker hinv (hsome d (List.mem_cons_self d ds)) hr hi
        have hss1 := indexDocument_ok_ss fetch chunker embed ss vs1 d ss1 vs2 cnt hi
        apply ih ss1 vs2 _ hinv1
        · intro d' hd'
          by_cases hk : d'.key = d.key
          · rw [hss1, hk, lookupDoc_setDoc_self]
            simp
          · rw [hss1, lookupDoc_setDoc_ne ss d.key d'.key _ hk]
            exact hsome d' (List.mem_cons_of_mem d hd')
        · simpa using herr

theorem processNew_inv (fetch : String → Except String String)
    (chunker : String → List String) (embed : Embed)
    (hchunker : ∀ s, s ≠ "" → chunker s ≠ []) (ds : List S3Document) :
    ∀ ss vs m,
      SyncInv ss vs →
      (∀ d ∈ ds, lookupDoc ss d.key = none) →
      (ds.map S3Document.key).Nodup →
      (processNew fetch chunker embed ds ss vs m).2.2.errors = m.errors →
      SyncInv (processNew fetch chunker embed ds ss vs m).1
        (processNew fetch chunker embed ds ss vs m).2.1 := by
  induction ds with
  | nil => intro ss vs m hinv _ _ _; simpa [processNew] using hinv
  | cons d ds ih =>
    intro ss vs m hinv hnone hnodup herr
    have hsplit : d.key ∉ ds.map S3Document.key ∧ (ds.map S3Document.key).Nodup := by
      rw [List.map_cons, List.nodup_cons] at hnodup
      exact hnodup
    rcases hi : indexDocument fetch chunker embed ss vs d with ⟨ss1, vs2, resI⟩
    cases resI with
    | error e =>
      exfalso
      simp only [processNew, hi] at herr
      obtain ⟨t, ht⟩ := processNew_errors_mono fetch chunker embed ds ss1 vs2
        { m with errors := m.errors ++ [(d.key, e)] }
      rw [herr] at ht
      simp only [List.append_assoc, List.singleton_append] at ht
      exact errors_no_growth ht.symm
    | ok cnt =>
      simp only [processNew, hi] at herr ⊢
      have hinv1 := SyncInv_index_new fetch chunker embed ss vs d ss1 vs2 cnt
        hchunker hinv (hnone d (List.mem_cons_self d ds)) hi
      have hss1 := indexDocument_ok_ss fetch chunker embed ss vs d ss1 vs2 cnt hi
      apply ih ss1 vs2 _ hinv1
      · intro d' hd'
        have hk : d'.key ≠ d.key := by
          intro heq
          exact hsplit.1 (by rw [← heq]; exact List.mem_map.mpr ⟨d', hd', rfl⟩)
        rw [hss1, lookupDoc_setDoc_ne ss d.key d'.key _ hk]
        exact hnone d' (List.mem_cons_of_mem d hd')
      · exact hsplit.2
      · simpa using herr

theorem SyncInv_save (ss : DocMap) (vs : VSState) (hinv : SyncInv ss vs) :
    SyncInv ss ((VSState.save vs true).1) := by
  obtain ⟨hwf, ⟨hkin, hkne⟩, hcon1, hcon2⟩ := hinv
  have hk := (save_fields vs true).2.1
  refine ⟨hwf, ⟨?_, ?_⟩, ?_, ?_⟩
  · rw [hk]; exact hkin
  · rw [hk]; exact hkne
  · intro k'; rw [hk]; exact hcon1 k'
  · intro k' r hr; rw [hk]; exact hcon2 k' r hr

theorem SyncInv_cleared (vs : VSState) : SyncInv [] (VSState.clearAll vs) := by
  refine ⟨by simp [wfDocMap], ⟨by simp [VSState.clearAll], ?_⟩, ?_, ?_⟩
  · intro p hp; simp [VSState.clearAll] at hp
  · intro k
    simp [lookupDoc, VSState.clearAll, kiHas]
  · intro k r hr
    simp [lookupDoc] at hr

theorem filter_keys_nodup (s3Docs : List S3Document) (p : S3Document → Bool)
    (h : (s3Docs.map S3Document.key).Nodup) :
    ((s3Docs.filter p).map S3Document.key).Nodup :=
  List.Nodup.sublist (List.Sublist.map _ (List.filter_sublist s3Docs)) h

theorem mem_s3_of_mem_modified (ss : DocMap) (s3Docs : List S3Document)
    (d : S3Document) (hd : d ∈ (detectChanges ss s3Docs).modified) : d ∈ s3Docs := by
  rw [detectChanges_modified] at hd
  exact (List.mem_filter.mp hd).1

theorem mem_s3_of_mem_new (ss : DocMap) (s3Docs : List S3Document)
    (d : S3Document) (hd : d ∈ (detectChanges ss s3Docs).new) : d ∈ s3Docs := by
  rw [detectChanges_new] at hd
  exact (List.mem_filter.mp hd).1

theorem modified_lookup_some (ss : DocMap) (s3Docs : List S3Document)
    (d : S3Document) (hd : d ∈ (detectChanges ss s3Docs).modified) :
    ∃ c, lookupDoc ss d.key = some c ∧ c.etag ≠ d.etag := by
  rw [detectChanges_modified] at hd
  exact (isModifiedDoc_iff ss d).mp (List.mem_filter.mp hd).2

theorem new_lookup_none (ss : DocMap) (s3Docs : List S3Document)
    (d : S3Document) (hd : d ∈ (detectChanges ss s3Docs).new) :
    lookupDoc ss d.key = none := by
  rw [detectChanges_new] at hd
  exact (isNewDoc_iff ss d).mp (List.mem_filter.mp hd).2

theorem unchanged_lookup_some (ss : DocMap) (s3Docs : List S3Document)
    (d : S3Document) (hd : d ∈ (detectChanges ss s3Docs).unchanged) :
    ∃ c, lookupDoc ss d.key = some c ∧ c.etag = d.etag := by
  rw [detectChanges_unchanged] at hd
  exact (isUnchangedDoc_iff ss d).mp (List.mem_filter.mp hd).2

theorem not_mem_deleted_of_mem_s3 (ss : DocMap) (s3Docs : List S3Document)
    (k : String) (hk : k ∈ s3Docs.map S3Document.key) :
    k ∉ (detectChanges ss s3Docs).deleted := by
  rw [detectChanges_deleted]
  intro hmem
  have h2 := (List.mem_filter.mp hmem).2
  simp only [List.contains, decide_eq_true_eq] at h2
  apply h2
  rw [List.elem_iff]
  simpa using hk

theorem not_mem_modified_keys_of_new (ss : DocMap) (s3Docs : List S3Document)
    (d : S3Document) (hd : d ∈ (detectChanges ss s3Docs).new) :
    d.key ∉ (detectChanges ss s3Docs).modified.map S3Document.key := by
  intro hmem
  obtain ⟨d2, hd2, hd2k⟩ := List.mem_map.mp hmem
  obtain ⟨c, hc, _⟩ := modified_lookup_some ss s3Docs d2 hd2
  rw [hd2k] at hc
  rw [new_lookup_none ss s3Docs d hd] at hc
  cases hc

/-- C3.  Corrected form of the post-sync consistency claim: provided the
listing's keys are pairwise distinct and the chunker yields at least one chunk
for any non-empty content, a FULL run with an empty error list establishes
the key-set and chunk-count consistency between the sync state and the key
index unconditionally, and an INCREMENTAL run with an empty error list
preserves it from any well-formed state satisfying it before the run. -/
theorem C3_sync_consistency (fetch : String → Except String String)
    (chunker : String → List String) (embed : Embed) (mode : SyncMode)
    (s3Docs : List S3Document) (ss : DocMap) (vs : VSState)
    (hchunker : ∀ s, s ≠ "" → chunker s ≠ [])
    (hnodup : (s3Docs.map S3Document.key).Nodup)
    (hpre : mode = SyncMode.incremental → SyncInv ss vs)
    (herr : (performSync fetch chunker embed mode (Except.ok s3Docs) ss vs).2.2.errors
      = []) :
    ConsistentStates
      (performSync fetch chunker embed mode (Except.ok s3Docs) ss vs).1
      (performSync fetch chunker embed mode (Except.ok s3Docs) ss vs).2.1 := by
  cases mode with
  | full =>
    simp only [performSync] at herr ⊢
    have hinv := processNew_inv fetch chunker embed hchunker s3Docs []
      (VSState.clearAll vs) ⟨s3Docs.length, 0, 0, 0, 0, []⟩ (SyncInv_cleared vs)
      (fun d _ => rfl) hnodup (by simpa using herr)
    exact (SyncInv_save _ _ hinv).2.2
  | incremental =>
    have hinv0 := hpre rfl
    simp only [performSync] at herr ⊢
    set m1 : SyncMetrics := ⟨s3Docs.length, 0, 0, 0, 0, []⟩ with hm1
    obtain ⟨t1, ht1⟩ := processDeleted_errors_mono embed
      (detectChanges ss s3Docs).deleted ss vs m1
    obtain ⟨t2, ht2⟩ := processModified_errors_mono fetch chunker embed
      (detectChanges ss s3Docs).modified
      (processDeleted embed (detectChanges ss s3Docs).deleted ss vs m1).1
      (processDeleted embed (detectChanges ss s3Docs).deleted ss vs m1).2.1
      (processDeleted embed (detectChanges ss s3Docs).deleted ss vs m1).2.2
    obtain ⟨t3, ht3⟩ := processNew_errors_mono fetch chunker embed
      (detectChanges ss s3Docs).new
      (processModified fetch chunker embed (detectChanges ss s3Docs).modified
        (processDeleted embed (detectChanges ss s3Docs).deleted ss vs m1).1
        (processDeleted embed (detectChanges ss s3Docs).deleted ss vs m1).2.1
        (processDeleted embed (detectChanges ss s3Docs).deleted ss vs m1).2.2).1
      (processModified fetch chunker embed (detectChanges ss s3Docs).modified
        (processDeleted embed (detectChanges ss s3Docs).deleted ss vs m1).1
        (processDeleted embed (detectChanges ss s3Docs).deleted ss vs m1).2.1
        (processDeleted embed (detectChanges ss s3Docs).deleted ss vs m1).2.2).2.1
      (processModified fetch chunker embed (detectChanges ss s3Docs).modified
        (processDeleted embed (detectChanges ss s3Docs).deleted ss vs m1).1
        (processDeleted embed (detectChanges ss s3Docs).deleted ss vs m1).2.1
        (processDeleted embed (detectChanges ss s3Docs).deleted ss vs m1).2.2).2.2
    have hm1err : m1.errors = [] := rfl
    have hfin : (processNew fetch chunker embed (detectChanges ss s3Docs).new
        (processModified fetch chunker embed (detectChanges ss s3Docs).modified
          (processDeleted embed (detectChanges ss s3Docs).deleted ss vs m1).1
          (processDeleted embed (detectChanges ss s3Docs).deleted ss vs m1).2.1
          (processDeleted embed (detectChanges ss s3Docs).deleted ss vs m1).2.2).1
        (processModified fetch chunker embed (detectChanges ss s3Docs).modified
          (processDeleted embed (detectChanges ss s3Docs).deleted ss vs m1).1
          (processDeleted embed (detectChanges ss s3Docs).deleted ss vs m1).2.1
          (processDeleted embed (detectChanges ss s3Docs).deleted ss vs m1).2.2).2.1
        (processModified fetch chunker embed (detectChanges ss s3Docs).modified
          (processDeleted embed (detectChanges ss s3Docs).deleted ss vs m1).1
          (processDeleted embed (detectChanges ss s3Docs).deleted ss vs m1).2.1
          (processDeleted embed (detectChanges ss s3Docs).deleted ss vs m1).2.2).2.2).2.2.errors
        = [] := by
      simpa using herr
    have hall : t1 = [] ∧ t2 = [] ∧ t3 = [] := by
      rw [ht2, ht1, hm1err, List.nil_append] at ht3
      rw [hfin] at ht3
      have h0 : t1 ++ (t2 ++ t3) = [] := by
        rw [List.append_assoc] at ht3
        exact ht3.symm
      rcases List.append_eq_nil.mp h0 with ⟨h1, h23⟩
      rcases List.append_eq_nil.mp h23 with ⟨h2, h3⟩
      exact ⟨h1, h2, h3⟩
    have herrD : (processDeleted embed (detectChanges ss s3Docs).deleted ss vs m1).2.2.errors
        = m1.errors := by rw [ht1, hall.1, List.append_nil]
    have herrM : (processModified fetch chunker embed (detectChanges ss s3Docs).modified
        (processDeleted embed (detectChanges ss s3Docs).deleted ss vs m1).1
        (processDeleted embed (detectChanges ss s3Docs).deleted ss vs m1).2.1
        (processDeleted embed (detectChanges ss s3Docs).deleted ss vs m1).2.2).2.2.errors
        = (processDeleted embed (detectChanges ss s3Docs).deleted ss vs m1).2.2.errors := by
      rw [ht2, hall.2.1, List.append_nil]
    have herrN : (processNew fetch chunker embed (detectChanges ss s3Docs).new
        (processModified fetch chunker embed (detectChanges ss s3Docs).modified
          (processDeleted embed (detectChanges ss s3Docs).deleted ss vs m1).1
          (processDeleted embed (detectChanges ss s3Docs).deleted ss vs m1).2.1
          (processDeleted embed (detectChanges ss s3Docs).deleted ss vs m1).2.2).1
        (processModified fetch chunker embed (detectChanges ss s3Docs).modified
          (processDeleted embed (detectChanges ss s3Docs).deleted ss vs m1).1
          (processDeleted embed (detectChanges ss s3Docs).deleted ss vs m1).2.1
          (processDeleted embed (detectChanges ss s3Docs).deleted ss vs m1).2.2).2.1
        (processModified fetch chunker embed (detectChanges ss s3Docs).modified
          (processDeleted embed (detectChanges ss s3Docs).deleted ss vs m1).1
          (processDeleted embed (detectChanges ss s3Docs).deleted ss vs m1).2.1
          (processDeleted embed (detectChanges ss s3Docs).deleted ss vs m1).2.2).2.2).2.2.errors
        = (processModified fetch chunker embed (detectChanges ss s3Docs).modified
          (processDeleted embed (detectChanges ss s3Docs).deleted ss vs m1).1
          (processDeleted embed (detectChanges ss s3Docs).deleted ss vs m1).2.1
          (processDeleted embed (detectChanges ss s3Docs).deleted ss vs m1).2.2).2.2.errors := by
      rw [ht3, hall.2.2, List.append_nil]
    have hmodsome : ∀ d ∈ (detectChanges ss s3Docs).modified,
        (lookupDoc (processDeleted embed (detectChanges ss s3Docs).deleted ss vs m1).1
          d.key).isSome := by
      intro d hd
      rw [processDeleted_lookup embed (detectChanges ss s3Docs).deleted ss vs m1 herrD d.key]
      rw [if_neg (not_mem_deleted_of_mem_s3 ss s3Docs d.key
        (List.mem_map.mpr ⟨d, mem_s3_of_mem_modified ss s3Docs d hd, rfl⟩))]
      obtain ⟨c, hc, _⟩ := modified_lookup_some ss s3Docs d hd
      rw [hc]
      rfl
    have hinv1 := processDeleted_inv embed (detectChanges ss s3Docs).deleted ss vs m1
      hinv0 herrD
    have hinv2 := processModified_inv fetch chunker embed hchunker
      (detectChanges ss s3Docs).modified _ _ _ hinv1 hmodsome herrM
    have hnodupMod : ((detectChanges ss s3Docs).modified.map S3Document.key).Nodup := by
      rw [detectChanges_modified]
      exact filter_keys_nodup s3Docs _ hnodup
    have hnodupNew : ((detectChanges ss s3Docs).new.map S3Document.key).Nodup := by
      rw [detectChanges_new]
      exact filter_keys_nodup s3Docs _ hnodup
    have hnewnone : ∀ d ∈ (detectChanges ss s3Docs).new,
        lookupDoc (processModified fetch chunker embed (detectChanges ss s3Docs).modified
          (processDeleted embed (detectChanges ss s3Docs).deleted ss vs m1).1
          (processDeleted embed (detectChanges ss s3Docs).deleted ss vs m1).2.1
          (processDeleted embed (detectChanges ss s3Docs).deleted ss vs m1).2.2).1
          d.key = none := by
      intro d hd
      have hspec := processModified_spec fetch chunker embed
        (detectChanges ss s3Docs).modified _ _ _ herrM hnodupMod
      rw [hspec.1 d.key (not_mem_modified_keys_of_new ss s3Docs d hd)]
      rw [processDeleted_lookup embed (detectChanges ss s3Docs).deleted ss vs m1 herrD d.key]
      rw [if_neg (not_mem_deleted_of_mem_s3 ss s3Docs d.key
        (List.mem_map.mpr ⟨d, mem_s3_of_mem_new ss s3Docs d hd, rfl⟩))]
      exact new_lookup_none ss s3Docs d hd
    have hinv3 := processNew_inv fetch chunker embed hchunker
      (detectChanges ss s3Docs).new _ _ _ hinv2 hnewnone hnodupNew herrN
    exact (SyncInv_save _ _ hinv3).2.2

/-- A sync state whose only record has no counterpart in the key index. -/
def c3PreState : DocMap := [("a.md", ⟨"a.md", "e1", "t0", 1, "indexed"⟩)]

/-- A listed document whose etag matches the cached record. -/
def c3Doc : S3Document := ⟨"a.md", "e1", "t1", 4, some "text"⟩

/-- C3 counterexample.  From a pre-state in which a.md is recorded in the sync
state but absent from the key index, an incremental run over the matching
listing completes with an empty error list (the document is unchanged), yet
afterwards the sync state still knows a.md while the key index does not: the
claimed invariant fails without a precondition on the incremental pre-state. -/
theorem C3_counterexample :
    (performSync fetchOk chunkOne embedOne SyncMode.incremental
      (Except.ok [c3Doc]) c3PreState vs0).2.2.errors = [] ∧
    (lookupDoc (performSync fetchOk chunkOne embedOne SyncMode.incremental
      (Except.ok [c3Doc]) c3PreState vs0).1 "a.md").isSome = true ∧
    kiHas (performSync fetchOk chunkOne embedOne SyncMode.incremental
      (Except.ok [c3Doc]) c3PreState vs0).2.1.keyIndex "a.md" = false := by
  decide

/-- C3 witness: a full run over one document from the empty state, with the
consistency conclusion given by the corrected theorem. -/
theorem C3_witness :
    (∀ s, s ≠ "" → chunkOne s ≠ []) ∧
    (([c3Doc].map S3Document.key).Nodup) ∧
    (performSync fetchOk chunkOne embedOne SyncMode.full
      (Except.ok [c3Doc]) [] vs0).2.2.errors = [] ∧
    ConsistentStates
      (performSync fetchOk chunkOne embedOne SyncMode.full
        (Except.ok [c3Doc]) [] vs0).1
      (performSync fetchOk chunkOne embedOne SyncMode.full
        (Except.ok [c3Doc]) [] vs0).2.1 :=
  ⟨fun s _ => by simp [chunkOne], by decide, by decide,
   C3_sync_consistency fetchOk chunkOne embedOne SyncMode.full [c3Doc] [] vs0
     (fun s _ => by simp [chunkOne]) (by decide)
     (fun h => absurd h (by decide)) (by decide)⟩

/-- The relation between a sync state and a listing after a clean sync: every
listed document is recorded with a matching etag, and every recorded key is
listed. -/
def InSyncWith (ss : DocMap) (s3Docs : List S3Document) : Prop :=
  (∀ d ∈ s3Docs, ∃ r, lookupDoc ss d.key = some r ∧ r.etag = d.etag) ∧
  (∀ k, (lookupDoc ss k).isSome → k ∈ s3Docs.map S3Document.key)

/-- The initial metrics of a run over a listing. -/
def incrM1 (s3Docs : List S3Document) : SyncMetrics := ⟨s3Docs.length, 0, 0, 0, 0, []⟩

/-- The state after the deletion loop of an incremental run. -/
def incrR1 (embed : Embed) (ss : DocMap) (vs : VSState)
    (s3Docs : List S3Document) : DocMap × VSState × SyncMetrics :=
  processDeleted embed (detectChanges ss s3Docs).deleted ss vs (incrM1 s3Docs)

/-- The state after the modification loop of an incremental run. -/
def incrR2 (fetch : String → Except String String) (chunker : String → List String)
    (embed : Embed) (ss : DocMap) (vs : VSState)
    (s3Docs : List S3Document) : DocMap × VSState × SyncMetrics :=
  processModified fetch chunker embed (detectChanges ss s3Docs).modified
    (incrR1 embed ss vs s3Docs).1 (incrR1 embed ss vs s3Docs).2.1
    (incrR1 embed ss vs s3Docs).2.2

/-- The state after the addition loop of an incremental run. -/
def incrR3 (fetch : String → Except String String) (chunker : String → List String)
    (embed : Embed) (ss : DocMap) (vs : VSState)
    (s3Docs : List S3Document) : DocMap × VSState × SyncMetrics :=
  processNew fetch chunker embed (detectChanges ss s3Docs).new
    (incrR2 fetch chunker embed ss vs s3Docs).1
    (incrR2 fetch chunker embed ss vs s3Docs).2.1
    (incrR2 fetch chunker embed ss vs s3Docs).2.2

theorem performSync_incremental_eq (fetch : String → Except String String)
    (chunker : String → List String) (embed : Embed)
    (s3Docs : List S3Document) (ss : DocMap) (vs : VSState) :
    performSync fetch chunker embed SyncMode.incremental (Except.ok s3Docs) ss vs
      = ((incrR3 fetch chunker embed ss vs s3Docs).1,
         (VSState.save (incrR3 fetch chunker embed ss vs s3Docs).2.1 true).1,
         { (incrR3 fetch chunker embed ss vs s3Docs).2.2 with
           documentsUnchanged := (detectChanges ss s3Docs).unchanged.length }) := rfl

theorem incremental_errors_flat (fetch : String → Except String String)
    (chunker : String → List String) (embed : Embed)
    (s3Docs : List S3Document) (ss : DocMap) (vs : VSState)
    (herr : (performSync fetch chunker embed SyncMode.incremental
      (Except.ok s3Docs) ss vs).2.2.errors = []) :
    (incrR1 embed ss vs s3Docs).2.2.errors = (incrM1 s3Docs).errors ∧
    (incrR2 fetch chunker embed ss vs s3Docs).2.2.errors
      = (incrR1 embed ss vs s3Docs).2.2.errors ∧
    (incrR3 fetch chunker embed ss vs s3Docs).2.2.errors
      = (incrR2 fetch chunker embed ss vs s3Docs).2.2.errors := by
  obtain ⟨t1, ht1⟩ := processDeleted_errors_mono embed
    (detectChanges ss s3Docs).deleted ss vs (incrM1 s3Docs)
  obtain ⟨t2, ht2⟩ := processModified_errors_mono fetch chunker embed
    (detectChanges ss s3Docs).modified (incrR1 embed ss vs s3Docs).1
    (incrR1 embed ss vs s3Docs).2.1 (incrR1 embed ss vs s3Docs).2.2
  obtain ⟨t3, ht3⟩ := processNew_errors_mono fetch chunker embed
    (detectChanges ss s3Docs).new (incrR2 fetch chunker embed ss vs s3Docs).1
    (incrR2 fetch chunker embed ss vs s3Docs).2.1
    (incrR2 fetch chunker embed ss vs s3Docs).2.2
  have ht1' : (incrR1 embed ss vs s3Docs).2.2.errors = t1 := by
    rw [incrR1] at *
    rw [ht1]
    rfl
  have ht2' : (incrR2 fetch chunker embed ss vs s3Docs).2.2.errors
      = (incrR1 embed ss vs s3Docs).2.2.errors ++ t2 := by
    rw [incrR2] at *
    exact ht2
  have ht3' : (incrR3 fetch chunker embed ss vs s3Docs).2.2.errors
      = (incrR2 fetch chunker embed ss vs s3Docs).2.2.errors ++ t3 := by
    rw [incrR3] at *
    exact ht3
  have hfin : (incrR3 fetch chunker embed ss vs s3Docs).2.2.errors = [] := by
    rw [performSync_incremental_eq] at herr
    simpa using herr
  have h0 : t1 ++ (t2 ++ t3) = [] := by
    rw [ht3', ht2', ht1'] at hfin
    rw [← List.append_assoc]
    exact hfin
  rcases List.append_eq_nil.mp h0 with ⟨h1, h23⟩
  rcases List.append_eq_nil.mp h23 with ⟨h2, h3⟩
  refine ⟨?_, ?_, ?_⟩
  · rw [ht1', h1]; rfl
  · rw [ht2', h2, List.append_nil]
  · rw [ht3', h3, List.append_nil]

theorem new_keys_sub (ss : DocMap) (s3Docs : List S3Document) (k : String)
    (hk : k ∈ (detectChanges ss s3Docs).new.map S3Document.key) :
    k ∈ s3Docs.map S3Document.key := by
  rw [detectChanges_new] at hk
  obtain ⟨d, hd, hdk⟩ := List.mem_map.mp hk
  exact List.mem_map.mpr ⟨d, (List.mem_filter.mp hd).1, hdk⟩

theorem modified_keys_sub (ss : DocMap) (s3Docs : List S3Document) (k : String)
    (hk : k ∈ (detectChanges ss s3Docs).modified.map S3Document.key) :
    k ∈ s3Docs.map S3Document.key := by
  rw [detectChanges_modified] at hk
  obtain ⟨d, hd, hdk⟩ := List.mem_map.mp hk
  exact List.mem_map.mpr ⟨d, (List.mem_filter.mp hd).1, hdk⟩

theorem performSync_incremental_insync (fetch : String → Except String String)
    (chunker : String → List String) (embed : Embed)
    (s3Docs : List S3Document) (ss : DocMap) (vs : VSState)
    (hnodup : (s3Docs.map S3Document.key).Nodup)
    (herr : (performSync fetch chunker embed SyncMode.incremental
      (Except.ok s3Docs) ss vs).2.2.errors = []) :
    InSyncWith (performSync fetch chunker embed SyncMode.incremental
      (Except.ok s3Docs) ss vs).1 s3Docs := by
  obtain ⟨herrD, herrM, herrN⟩ :=
    incremental_errors_flat fetch chunker embed s3Docs ss vs herr
  have hnodupMod : ((detectChanges ss s3Docs).modified.map S3Document.key).Nodup := by
    rw [detectChanges_modified]
    exact filter_keys_nodup s3Docs _ hnodup
  have hnodupNew : ((detectChanges ss s3Docs).new.map S3Document.key).Nodup := by
    rw [detectChanges_new]
    exact filter_keys_nodup s3Docs _ hnodup
  rw [performSync_incremental_eq]
  simp only [incrR3, incrR2, incrR1] at herrD herrM herrN ⊢
  have hspecM := processModified_spec fetch chunker embed
    (detectChanges ss s3Docs).modified _ _ _ herrM hnodupMod
  have hspecN := processNew_spec fetch chunker embed
    (detectChanges ss s3Docs).new _ _ _ herrN hnodupNew
  have hlookD := processDeleted_lookup embed
    (detectChanges ss s3Docs).deleted ss vs (incrM1 s3Docs) herrD
  constructor
  · intro d hd
    rcases hc : lookupDoc ss d.key with _ | c
    · have hdnew : d ∈ (detectChanges ss s3Docs).new := by
        rw [detectChanges_new]
        exact List.mem_filter.mpr ⟨hd, by simp [isNewDoc, hc]⟩
      obtain ⟨cc, hcc⟩ := hspecN.2 d hdnew
      exact ⟨_, hcc, rfl⟩
    · by_cases he : c.etag = d.etag
      · have hdnm : d.key ∉ (detectChanges ss s3Docs).modified.map S3Document.key := by
          intro hmem
          obtain ⟨d2, hd2, hd2k⟩ := List.mem_map.mp hmem
          have hd2s3 := mem_s3_of_mem_modified ss s3Docs d2 hd2
          have heqd : d2 = d := List.inj_on_of_nodup_map hnodup hd2s3 hd hd2k
          obtain ⟨c2, hc2, hne2⟩ := modified_lookup_some ss s3Docs d2 hd2
          rw [heqd] at hc2 hne2
          rw [hc] at hc2
          cases hc2
          exact hne2 he
        have hdnn : d.key ∉ (detectChanges ss s3Docs).new.map S3Document.key := by
          intro hmem
          obtain ⟨d2, hd2, hd2k⟩ := List.mem_map.mp hmem
          have := new_lookup_none ss s3Docs d2 hd2
          rw [hd2k, hc] at this
          cases this
        rw [hspecN.1 d.key hdnn, hspecM.1 d.key hdnm, hlookD d.key,
          if_neg (not_mem_deleted_of_mem_s3 ss s3Docs d.key
            (List.mem_map.mpr ⟨d, hd, rfl⟩))]
        exact ⟨c, hc, he⟩
      · have hdmod : d ∈ (detectChanges ss s3Docs).modified := by
          rw [detectChanges_modified]
          refine List.mem_filter.mpr ⟨hd, ?_⟩
          rw [isModifiedDoc_iff]
          exact ⟨c, hc, he⟩
        obtain ⟨cc, hcc⟩ := hspecM.2 d hdmod
        have hdnn : d.key ∉ (detectChanges ss s3Docs).new.map S3Document.key := by
          intro hmem
          obtain ⟨d2, hd2, hd2k⟩ := List.mem_map.mp hmem
          have := new_lookup_none ss s3Docs d2 hd2
          rw [hd2k, hc] at this
          cases this
        rw [hspecN.1 d.key hdnn]
        exact ⟨_, hcc, rfl⟩
  · intro k hk
    by_contra hnk
    have hknew : k ∉ (detectChanges ss s3Docs).new.map S3Document.key :=
      fun hmem => hnk (new_keys_sub ss s3Docs k hmem)
    have hkmod : k ∉ (detectChanges ss s3Docs).modified.map S3Document.key :=
      fun hmem => hnk (modified_keys_sub ss s3Docs k hmem)
    rw [hspecN.1 k hknew, hspecM.1 k hkmod, hlookD k] at hk
    by_cases hdel : k ∈ (detectChanges ss s3Docs).deleted
    · rw [if_pos hdel] at hk
      simp at hk
    · rw [if_neg hdel] at hk
      apply hdel
      rw [detectChanges_deleted]
      apply List.mem_filter.mpr
      refine ⟨(lookupDoc_isSome_iff ss k).mp hk, ?_⟩
      simp only [List.contains, decide_eq_true_eq]
      intro hcon
      rw [List.elem_iff] at hcon
      exact hnk (by simpa using hcon)

theorem detectChanges_insync (ss : DocMap) (s3Docs : List S3Document)
    (h : InSyncWith ss s3Docs) :
    (detectChanges ss s3Docs).new = [] ∧
    (detectChanges ss s3Docs).modified = [] ∧
    (detectChanges ss s3Docs).deleted = [] := by
  refine ⟨?_, ?_, ?_⟩
  · rw [detectChanges_new]
    apply List.filter_eq_nil_iff.mpr
    intro d hd
    obtain ⟨r, hr, _⟩ := h.1 d hd
    simp [isNewDoc, hr]
  · rw [detectChanges_modified]
    apply List.filter_eq_nil_iff.mpr
    intro d hd
    obtain ⟨r, hr, hetag⟩ := h.1 d hd
    simp [isModifiedDoc, hr, hetag]
  · rw [detectChanges_deleted]
    apply List.filter_eq_nil_iff.mpr
    intro k hk
    have hsome : (lookupDoc ss k).isSome := by
      rw [lookupDoc_isSome_iff]
      exact hk
    have hmem := h.2 k hsome
    simp only [List.contains, decide_not, Bool.not_eq_eq_eq_not, Bool.not_true,
      decide_eq_false_iff_not]
    intro hcon
    apply hcon
    rw [List.elem_iff]
    simpa using hmem

/-- C9.  Corrected idempotence claim: provided the listing's keys are pairwise
distinct, running `performSync` in incremental mode twice over the same
listing, with the first run completing with an empty error list, yields zero
added, modified and deleted documents in the metrics of the second run. -/
theorem C9_incremental_idempotent (fetch : String → Except String String)
    (chunker : String → List String) (embed : Embed)
    (s3Docs : List S3Document) (ss : DocMap) (vs : VSState)
    (hnodup : (s3Docs.map S3Document.key).Nodup)
    (herr : (performSync fetch chunker embed SyncMode.incremental
      (Except.ok s3Docs) ss vs).2.2.errors = []) :
    (performSync fetch chunker embed SyncMode.incremental (Except.ok s3Docs)
      (performSync fetch chunker embed SyncMode.incremental
        (Except.ok s3Docs) ss vs).1
      (performSync fetch chunker embed SyncMode.incremental
        (Except.ok s3Docs) ss vs).2.1).2.2.documentsAdded = 0 ∧
    (performSync fetch chunker embed SyncMode.incremental (Except.ok s3Docs)
      (performSync fetch chunker embed SyncMode.incremental
        (Except.ok s3Docs) ss vs).1
      (performSync fetch chunker embed SyncMode.incremental
        (Except.ok s3Docs) ss vs).2.1).2.2.documentsModified = 0 ∧
    (performSync fetch chunker embed SyncMode.incremental (Except.ok s3Docs)
      (performSync fetch chunker embed SyncMode.incremental
        (Except.ok s3Docs) ss vs).1
      (performSync fetch chunker embed SyncMode.incremental
        (Except.ok s3Docs) ss vs).2.1).2.2.documentsDeleted = 0 := by
  have hsync := performSync_incremental_insync fetch chunker embed s3Docs ss vs hnodup herr
  obtain ⟨hn, hm, hd⟩ := detectChanges_insync _ s3Docs hsync
  rw [performSync_incremental_eq
    fetch chunker embed s3Docs
    (performSync fetch chunker embed SyncMode.incremental (Except.ok s3Docs) ss vs).1
    (performSync fetch chunker embed SyncMode.incremental (Except.ok s3Docs) ss vs).2.1]
  simp only [incrR3, incrR2, incrR1]
  rw [hn, hm, hd]
  simp only [processDeleted, processModified, processNew]
  exact ⟨rfl, rfl, rfl⟩

/-- A duplicate-key listing with two different etags, content attached. -/
def c9DupListing : List S3Document :=
  [⟨"a.md", "e1", "t1", 4, some "text one"⟩, ⟨"a.md", "e2", "t1", 4, some "text two"⟩]

/-- C9 counterexample.  Over a listing containing the same key with two
different etags, the first incremental run completes without errors, but the
second run over the identical listing reports one modified document instead
of zero: the claim fails as stated for arbitrary listing lists. -/
theorem C9_counterexample :
    (performSync fetchOk chunkOne embedOne SyncMode.incremental
      (Except.ok c9DupListing) [] vs0).2.2.errors = [] ∧
    (performSync fetchOk chunkOne embedOne SyncMode.incremental (Except.ok c9DupListing)
      (performSync fetchOk chunkOne embedOne SyncMode.incremental
        (Except.ok c9DupListing) [] vs0).1
      (performSync fetchOk chunkOne embedOne SyncMode.incremental
        (Except.ok c9DupListing) [] vs0).2.1).2.2.documentsModified = 1 := by
  decide

/-- A duplicate-free listing for the C9 witness. -/
def c9Listing : List S3Document :=
  [⟨"a.md", "e1", "t1", 4, some "text one"⟩, ⟨"b.md", "e2", "t1", 4, some "text two"⟩]

/-- C9 witness: the corrected idempotence theorem applied to a concrete
two-document duplicate-free listing whose first run is error-free. -/
theorem C9_witness :
    ((c9Listing.map S3Document.key).Nodup) ∧
    (performSync fetchOk chunkOne embedOne SyncMode.incremental
      (Except.ok c9Listing) [] vs0).2.2.errors = [] ∧
    ((performSync fetchOk chunkOne embedOne SyncMode.incremental (Except.ok c9Listing)
      (performSync fetchOk chunkOne embedOne SyncMode.incremental
        (Except.ok c9Listing) [] vs0).1
      (performSync fetchOk chunkOne embedOne SyncMode.incremental
        (Except.ok c9Listing) [] vs0).2.1).2.2.documentsAdded = 0 ∧
    (performSync fetchOk chunkOne embedOne SyncMode.incremental (Except.ok c9Listing)
      (performSync fetchOk chunkOne embedOne SyncMode.incremental
        (Except.ok c9Listing) [] vs0).1
      (performSync fetchOk chunkOne embedOne SyncMode.incremental
        (Except.ok c9Listing) [] vs0).2.1).2.2.documentsModified = 0 ∧
    (performSync fetchOk chunkOne embedOne SyncMode.incremental (Except.ok c9Listing)
      (performSync fetchOk chunkOne embedOne SyncMode.incremental
        (Except.ok c9Listing) [] vs0).1
      (performSync fetchOk chunkOne embedOne SyncMode.incremental
        (Except.ok c9Listing) [] vs0).2.1).2.2.documentsDeleted = 0) :=
  ⟨by decide, by decide,
   C9_incremental_idempotent fetchOk chunkOne embedOne c9Listing [] vs0
     (by decide) (by decide)⟩

/-- The not-found classification of get-full-document (part_008 line 80): the
caught error is a not-found condition when its message contains NoSuchKey, 404
or NotFound (the S3 loader wraps errors by string interpolation, so the
original marker survives inside the message). -/
def leadsWith : List Char → List Char → Bool
  | [], _ => true
  | _ :: _, [] => false
  | p :: ps, c :: cs => p == c && leadsWith ps cs

/-- Substring containment on character lists, modelling
`String.prototype.includes`. -/
def occursIn (pat : List Char) : List Char → Bool
  | [] => pat.isEmpty
  | c :: cs => leadsWith pat (c :: cs) || occursIn pat cs

def isNotFoundMessage (msg : String) : Bool :=
  occursIn "NoSuchKey".toList msg.toList ||
  occursIn "404".toList msg.toList ||
  occursIn "NotFound".toList msg.toList

/-- Mid part of the stale-read message (part_008 lines 85-88). -/
def staleSuffixA : String := " was found in the index (last indexed: "

/-- Tail of the stale-read message (part_008 lines 85-88). -/
def staleSuffixB : String :=
  ") but is no longer available in S3. This may indicate the file was deleted. Please run refresh_index to synchronize the index with S3."

/-- Tail of the generic not-found message (part_008 lines 91-94). -/
def genericSuffix : String :=
  " not found in S3. Please verify the key is correct. If you found this key via search, the file may have been deleted from S3. Run refresh_index to update the index."

/-- The stale-read error raised for a key that is indexed but gone from S3. -/
def staleIndexMessage (key lastModified : String) : String :=
  "Document " ++ key ++ staleSuffixA ++ lastModified ++ staleSuffixB

/-- The generic not-found error raised for a key unknown to the index. -/
def genericNotFoundMessage (key : String) : String :=
  "Document " ++ key ++ genericSuffix

/-- Metadata of an S3 object as returned by `getFileMetadata` (null on any
retrieval error, never a thrown exception). -/
structure S3Metadata where
  size : Nat
  lastModified : String
  etag : String
deriving DecidableEq, Repr

/-- Successful output of the get-full-document tool. -/
structure FullDocumentOutput where
  s3Key : String
  content : String
  sizeBytes : Nat
  lastModified : String
  etag : String
  chunkCount : Option Nat
deriving DecidableEq, Repr

/-- The catch block of `getFullDocument` (part_008 lines 74-98): a not-found
message is rethrown as the stale-read error when the key is still recorded in
the sync state, and as the generic not-found error otherwise; any other error
is wrapped. -/
def classifyCaughtError (getDocumentInfo : String → Option SyncRecord)
    (key e : String) : String :=
  if isNotFoundMessage e then
    match getDocumentInfo key with
    | some info => staleIndexMessage key info.lastModified
    | none => genericNotFoundMessage key
  else "Error fetching document: " ++ e

/-- `getFullDocument` (part_008 lines 34-99): fetch the content, reject empty
content, fetch metadata (null means an error), attach the chunk count from the
sync state, and route every thrown error through the catch block above. -/
def getFullDocument (fetchContent : String → Except String String)
    (fetchMetadata : String → Option S3Metadata)
    (getDocumentInfo : String → Option SyncRecord)
    (key : String) : Except String FullDocumentOutput :=
  match fetchContent key with
  | Except.error e => Except.error (classifyCaughtError getDocumentInfo key e)
  | Except.ok content =>
    if content = "" then
      Except.error (classifyCaughtError getDocumentInfo key
        ("Document " ++ key ++ " has no content"))
    else
      match fetchMetadata key with
      | none =>
        Except.error (classifyCaughtError getDocumentInfo key
          ("Unable to retrieve metadata for " ++ key))
      | some md =>
        Except.ok ⟨key, content, md.size, md.lastModified, md.etag,
          (getDocumentInfo key).map (fun info => info.chunkCount)⟩

set_option maxRecDepth 8192 in
theorem stale_ne_generic (key lm : String) :
    staleIndexMessage key lm ≠ genericNotFoundMessage key := by
  intro h
  have hd := congrArg String.data h
  simp only [staleIndexMessage, genericNotFoundMessage, String.data_append,
    List.append_assoc] at hd
  have hcancel := List.append_cancel_left hd
  have hcancel2 := List.append_cancel_left hcancel
  have h1 : (staleSuffixA.data ++ (lm.data ++ staleSuffixB.data))[1]? = some 'w' := by
    rw [List.getElem?_append]
    rw [if_pos (by decide)]
    decide
  rw [hcancel2] at h1
  have h2 : (genericSuffix.data)[1]? = some 'n' := by decide
  rw [h2] at h1
  simp at h1

/-- C10.  For every key recorded in the sync state whose content fetch fails
with a not-found condition, the retrieval fails with the stale-read error that
names the index hit and recommends a resync; that message differs from the
generic not-found error, which is what the same call produces when the key is
unknown to the sync state. -/
theorem C10_stale_read_distinguished (fetchContent : String → Except String String)
    (fetchMetadata : String → Option S3Metadata)
    (getDocumentInfo : String → Option SyncRecord)
    (key e : String) (info : SyncRecord)
    (hfetch : fetchContent key = Except.error e)
    (hnf : isNotFoundMessage e = true)
    (hinfo : getDocumentInfo key = some info) :
    getFullDocument fetchContent fetchMetadata getDocumentInfo key
      = Except.error (staleIndexMessage key info.lastModified) ∧
    staleIndexMessage key info.lastModified ≠ genericNotFoundMessage key ∧
    (∀ getInfo2 : String → Option SyncRecord, getInfo2 key = none →
      getFullDocument fetchContent fetchMetadata getInfo2 key
        = Except.error (genericNotFoundMessage key)) := by
  refine ⟨?_, stale_ne_generic key info.lastModified, ?_⟩
  · unfold getFullDocument
    simp only [hfetch]
    unfold classifyCaughtError
    rw [if_pos hnf]
    simp only [hinfo]
  · intro getInfo2 hnone
    unfold getFullDocument
    simp only [hfetch]
    unfold classifyCaughtError
    rw [if_pos hnf]
    simp only [hnone]

/-- A content fetch failing with a wrapped NoSuchKey error, as the S3 loader
produces for a remotely deleted object. -/
def fetchGone : String → Except String String :=
  fun k => Except.error ("Unable to download " ++ k ++ ": NoSuchKey: The specified key does not exist.")

/-- A sync state lookup that still knows the document. -/
def infoA : SyncRecord := ⟨"a.md", "e1", "t0", 2, "indexed"⟩

set_option maxRecDepth 8192 in
/-- C10 witness: the theorem applied to a fetch that fails with a wrapped
NoSuchKey message and a sync state that still records the key. -/
theorem C10_witness :
    fetchGone "a.md" = Except.error
      ("Unable to download " ++ "a.md" ++ ": NoSuchKey: The specified key does not exist.") ∧
    isNotFoundMessage
      ("Unable to download " ++ "a.md" ++ ": NoSuchKey: The specified key does not exist.") = true ∧
    ((fun _ => some infoA) : String → Option SyncRecord) "a.md" = some infoA ∧
    (getFullDocument fetchGone (fun _ => none) (fun _ => some infoA) "a.md"
      = Except.error (staleIndexMessage "a.md" infoA.lastModified) ∧
    staleIndexMessage "a.md" infoA.lastModified ≠ genericNotFoundMessage "a.md" ∧
    (∀ getInfo2 : String → Option SyncRecord, getInfo2 "a.md" = none →
      getFullDocument fetchGone (fun _ => none) getInfo2 "a.md"
        = Except.error (genericNotFoundMessage "a.md"))) :=
  ⟨rfl, by decide, rfl,
   C10_stale_read_distinguished fetchGone (fun _ => none) (fun _ => some infoA)
     "a.md" _ infoA rfl (by decide) rfl⟩

end S3DocMcp
